import Mathlib

/-!
Verification of the content-delivery and display-sequencing pipeline of the
`philosophy_panel` repository.  The background process (`llm_loop`: prompt
generation, `sanitize_and_format`, `wrap_to_width`, the persistent BLE bridge
`write_payload`) and the device firmware (BLE/USB ingestion accumulators, the
display state machine, the block dissolve animation) are embedded shallowly:
strings become `List Char`, the mutable loops become recursive functions or
explicit state-passing step functions, and process-level randomness / transport
outcomes become explicit oracle parameters.
-/

/-! ### Characters

Character classes used by the formatter.  `TOKEN_RE = \G[A-Za-z]+(?:'[A-Za-z]+)*`
and Ruby `\s` (space, tab, LF, VT, FF, CR).  Named constants are used for the
non-alphanumeric characters: space 32, comma 44, full stop 46, newline 10,
apostrophe 39, the Unicode single quotes 8217/8216.
-/

def spCh : Char := Char.ofNat 32

def commaCh : Char := Char.ofNat 44

def dotCh : Char := Char.ofNat 46

def nlCh : Char := Char.ofNat 10

def aposCh : Char := Char.ofNat 39

def rsqCh : Char := Char.ofNat 8217

def lsqCh : Char := Char.ofNat 8216

def isLetter (c : Char) : Bool :=
  (65 ≤ c.toNat && c.toNat ≤ 90) || (97 ≤ c.toNat && c.toNat ≤ 122)

def isSpaceCh (c : Char) : Bool :=
  c.toNat = 32 || (9 ≤ c.toNat && c.toNat ≤ 13)

theorem isLetter_not_space {c : Char} (h : isLetter c = true) : isSpaceCh c = false := by
  simp only [isLetter, Bool.or_eq_true, Bool.and_eq_true, decide_eq_true_eq] at h
  simp only [isSpaceCh, Bool.or_eq_false_iff, Bool.and_eq_false_iff, decide_eq_false_iff_not]
  omega

theorem spCh_isSpace : isSpaceCh spCh = true := by decide

theorem comma_not_space : isSpaceCh commaCh = false := by decide

theorem dot_not_space : isSpaceCh dotCh = false := by decide

theorem apos_not_space : isSpaceCh aposCh = false := by decide

theorem nl_isSpace : isSpaceCh nlCh = true := by decide

/-! ### Adjacent character pairs

`hasPair a b l` is true when the character `a` is immediately followed by the
character `b` somewhere in `l`.  The formatter claims are stated through it
("no space directly before a comma", ...).
-/

def hasPair (a b : Char) : List Char → Bool
  | c :: d :: rest => (c = a && d = b) || hasPair a b (d :: rest)
  | _ => false

theorem hasPair_nil (a b : Char) : hasPair a b [] = false := rfl

theorem hasPair_single (a b c : Char) : hasPair a b [c] = false := rfl

theorem hasPair_cons_cons (a b c d : Char) (rest : List Char) :
    hasPair a b (c :: d :: rest) = ((c = a && d = b) || hasPair a b (d :: rest)) := rfl

/-- Pairs in `x ++ y` are pairs of `x`, pairs of `y`, or the boundary pair. -/
theorem hasPair_append (a b : Char) (x y : List Char) :
    hasPair a b (x ++ y) = true ↔
      (hasPair a b x = true ∨ hasPair a b y = true ∨
        (x.getLast? = some a ∧ y.head? = some b)) := by
  induction x with
  | nil =>
    simp only [List.nil_append, hasPair_nil, List.getLast?_nil]
    constructor
    · intro h; exact Or.inr (Or.inl h)
    · rintro (h | h | ⟨h, _⟩)
      · exact absurd h (by simp)
      · exact h
      · exact Option.noConfusion h
  | cons c t ih =>
    match t with
    | [] =>
      match y with
      | [] =>
        constructor
        · intro h; exact absurd h (by simp [hasPair])
        · rintro (h | h | ⟨_, h2⟩)
          · exact absurd h (by simp [hasPair])
          · exact absurd h (by simp [hasPair])
          · exact Option.noConfusion h2
      | d :: y' =>
        show hasPair a b (c :: d :: y') = true ↔ _
        rw [hasPair_cons_cons]
        simp only [hasPair_single, List.getLast?_singleton, List.head?_cons,
          Bool.or_eq_true, Bool.and_eq_true, decide_eq_true_eq, Option.some.injEq]
        constructor
        · rintro (⟨h1, h2⟩ | h)
          · exact Or.inr (Or.inr ⟨h1, h2⟩)
          · exact Or.inr (Or.inl h)
        · rintro (h | h | ⟨h1, h2⟩)
          · exact absurd h (by simp)
          · exact Or.inr h
          · exact Or.inl ⟨h1, h2⟩
    | d :: t' =>
      show hasPair a b (c :: d :: (t' ++ y)) = true ↔ _
      rw [hasPair_cons_cons]
      have hgl : (c :: d :: t').getLast? = (d :: t').getLast? := List.getLast?_cons_cons
      rw [hasPair_cons_cons, hgl]
      simp only [Bool.or_eq_true]
      constructor
      · rintro (h | h)
        · exact Or.inl (Or.inl h)
        · rcases ih.mp h with h1 | h2 | h3
          · exact Or.inl (Or.inr h1)
          · exact Or.inr (Or.inl h2)
          · exact Or.inr (Or.inr h3)
      · rintro ((h | h) | h | h)
        · exact Or.inl h
        · exact Or.inr (ih.mpr (Or.inl h))
        · exact Or.inr (ih.mpr (Or.inr (Or.inl h)))
        · exact Or.inr (ih.mpr (Or.inr (Or.inr h)))

theorem hasPair_of_prefix {a b : Char} {x y : List Char}
    (h : hasPair a b (x ++ y) = false) : hasPair a b x = false := by
  by_contra hc
  rw [Bool.not_eq_false] at hc
  rw [(hasPair_append a b x y).mpr (Or.inl hc)] at h
  exact Bool.noConfusion h

theorem hasPair_of_suffix {a b : Char} {x y : List Char}
    (h : hasPair a b (x ++ y) = false) : hasPair a b y = false := by
  by_contra hc
  rw [Bool.not_eq_false] at hc
  rw [(hasPair_append a b x y).mpr (Or.inr (Or.inl hc))] at h
  exact Bool.noConfusion h

theorem hasPair_append_false {a b : Char} {x y : List Char}
    (hx : hasPair a b x = false) (hy : hasPair a b y = false)
    (hb : ¬(x.getLast? = some a ∧ y.head? = some b)) :
    hasPair a b (x ++ y) = false := by
  by_contra hc
  rw [Bool.not_eq_false] at hc
  rcases (hasPair_append a b x y).mp hc with h | h | h
  · rw [hx] at h; exact Bool.noConfusion h
  · rw [hy] at h; exact Bool.noConfusion h
  · exact hb h

/-! ### Ruby `strip`

`stripList` models Ruby `String#strip` on the character list: whitespace is
removed from both ends (the additional NUL stripping of Ruby never matters
here, no NUL byte is ever produced by the pipeline).
-/

def rStrip (p : Char → Bool) (l : List Char) : List Char :=
  (l.reverse.dropWhile p).reverse

def stripList (cs : List Char) : List Char :=
  rStrip isSpaceCh (cs.dropWhile isSpaceCh)

theorem rStrip_decomp (p : Char → Bool) (l : List Char) :
    ∃ suf, l = rStrip p l ++ suf ∧ ∀ c ∈ suf, p c = true := by
  refine ⟨(l.reverse.takeWhile p).reverse, ?_, ?_⟩
  · conv_lhs => rw [← l.reverse_reverse, ← List.takeWhile_append_dropWhile (p := p) (l := l.reverse)]
    rw [List.reverse_append]
    rfl
  · intro c hc
    rw [List.mem_reverse] at hc
    exact List.mem_takeWhile_imp hc

theorem stripList_decomp (cs : List Char) :
    ∃ pre suf, cs = pre ++ stripList cs ++ suf ∧
      (∀ c ∈ pre, isSpaceCh c = true) ∧ (∀ c ∈ suf, isSpaceCh c = true) := by
  obtain ⟨suf, h1, h2⟩ := rStrip_decomp isSpaceCh (cs.dropWhile isSpaceCh)
  refine ⟨cs.takeWhile isSpaceCh, suf, ?_, ?_, h2⟩
  · conv_lhs => rw [← List.takeWhile_append_dropWhile (p := isSpaceCh) (l := cs)]
    rw [h1, List.append_assoc]
    rfl
  · intro c hc
    exact List.mem_takeWhile_imp hc

theorem hasPair_stripList {a b : Char} {cs : List Char}
    (h : hasPair a b cs = false) : hasPair a b (stripList cs) = false := by
  obtain ⟨pre, suf, hd, -, -⟩ := stripList_decomp cs
  rw [hd, List.append_assoc] at h
  exact hasPair_of_prefix (hasPair_of_suffix h)

theorem mem_stripList {c : Char} {cs : List Char} (h : c ∈ stripList cs) : c ∈ cs := by
  obtain ⟨pre, suf, hd, -, -⟩ := stripList_decomp cs
  rw [hd]
  exact List.mem_append.mpr (Or.inl (List.mem_append.mpr (Or.inr h)))

theorem stripList_getLast_not_space {cs : List Char} {c : Char}
    (h : (stripList cs).getLast? = some c) : isSpaceCh c = false := by
  have hrev : (stripList cs).getLast? =
      ((cs.dropWhile isSpaceCh).reverse.dropWhile isSpaceCh).head? := by
    rw [List.getLast?_eq_head?_reverse]
    unfold stripList rStrip
    rw [List.reverse_reverse]
  rw [hrev] at h
  have := List.head?_dropWhile_not isSpaceCh (cs.dropWhile isSpaceCh).reverse
  rw [h] at this
  exact this

/-! ### Token matching

`tokenMatch` models one anchored application of Ruby's
`TOKEN_RE = \G[A-Za-z]+(?:'[A-Za-z]+)*` at the front of the remaining text:
a maximal run of letters, then greedily repeated groups of an apostrophe
followed by a maximal nonempty run of letters.  The fuel of `tokenExtLoop` is
an upper bound on the group count; each group consumes at least two
characters, so `r.length` fuel is never exhausted.
-/

def tokenExtLoop : Nat → List Char → List Char × List Char
  | 0, cs => ([], cs)
  | fuel + 1, cs =>
    match cs with
    | c :: d :: rest =>
      if c = aposCh && isLetter d then
        let t := (d :: rest).takeWhile isLetter
        let r := (d :: rest).dropWhile isLetter
        let e := tokenExtLoop fuel r
        (c :: (t ++ e.1), e.2)
      else ([], cs)
    | _ => ([], cs)

def tokenMatch (cs : List Char) : Option (List Char × List Char) :=
  match cs with
  | c :: _ =>
    if isLetter c then
      let t := cs.takeWhile isLetter
      let r := cs.dropWhile isLetter
      let e := tokenExtLoop r.length r
      some (t ++ e.1, e.2)
    else none
  | [] => none

theorem tokenExtLoop_append (f : Nat) (cs : List Char) :
    (tokenExtLoop f cs).1 ++ (tokenExtLoop f cs).2 = cs := by
  induction f generalizing cs with
  | zero => rfl
  | succ f ih =>
    match cs with
    | [] => rfl
    | [c] => rfl
    | c :: d :: rest =>
      show (tokenExtLoop (f + 1) (c :: d :: rest)).1 ++ _ = _
      unfold tokenExtLoop
      by_cases h : (c = aposCh && isLetter d) = true
      · simp only [h, if_true]
        have := ih ((d :: rest).dropWhile isLetter)
        rw [List.cons_append, List.append_assoc, this,
          List.takeWhile_append_dropWhile]
      · simp only [Bool.not_eq_true] at h
        simp [h]

theorem tokenExtLoop_chars (f : Nat) (cs : List Char) :
    ∀ c ∈ (tokenExtLoop f cs).1, isLetter c = true ∨ c = aposCh := by
  induction f generalizing cs with
  | zero => intro c hc; exact absurd hc (by simp [tokenExtLoop])
  | succ f ih =>
    match cs with
    | [] => intro c hc; exact absurd hc (by simp [tokenExtLoop])
    | [c0] => intro c hc; exact absurd hc (by simp [tokenExtLoop])
    | c0 :: d :: rest =>
      intro c hc
      unfold tokenExtLoop at hc
      by_cases h : (c0 = aposCh && isLetter d) = true
      · simp only [h, if_true] at hc
        rcases List.mem_cons.mp hc with h1 | h2
        · subst h1
          exact Or.inr (by
            rcases Bool.and_eq_true_iff.mp h with ⟨h3, _⟩
            exact decide_eq_true_eq.mp h3)
        · rcases List.mem_append.mp h2 with h3 | h4
          · exact Or.inl (List.mem_takeWhile_imp h3)
          · exact ih _ c h4
      · simp only [Bool.not_eq_true] at h
        simp [h] at hc

theorem tokenMatch_append {cs tok r : List Char}
    (h : tokenMatch cs = some (tok, r)) : tok ++ r = cs := by
  match cs with
  | [] => exact Option.noConfusion h
  | c :: rest =>
    unfold tokenMatch at h
    by_cases hl : isLetter c = true
    · simp only [hl, if_true, Option.some.injEq, Prod.mk.injEq] at h
      obtain ⟨h1, h2⟩ := h
      rw [← h1, ← h2, List.append_assoc, tokenExtLoop_append,
        List.takeWhile_append_dropWhile]
    · simp only [Bool.not_eq_true] at hl
      simp [hl] at h

theorem tokenMatch_head {cs tok r : List Char}
    (h : tokenMatch cs = some (tok, r)) :
    ∃ d t, tok = d :: t ∧ isLetter d = true := by
  match cs with
  | [] => exact Option.noConfusion h
  | c :: rest =>
    unfold tokenMatch at h
    by_cases hl : isLetter c = true
    · simp only [hl, if_true, Option.some.injEq, Prod.mk.injEq] at h
      obtain ⟨h1, -⟩ := h
      refine ⟨c, rest.takeWhile isLetter ++
        (tokenExtLoop ((c :: rest).dropWhile isLetter).length
          ((c :: rest).dropWhile isLetter)).1, ?_, hl⟩
      rw [← h1, List.takeWhile_cons_of_pos hl, List.cons_append]
    · simp only [Bool.not_eq_true] at hl
      simp [hl] at h

theorem tokenMatch_ne_nil {cs tok r : List Char}
    (h : tokenMatch cs = some (tok, r)) : tok ≠ [] := by
  obtain ⟨d, t, h1, -⟩ := tokenMatch_head h
  rw [h1]
  exact List.cons_ne_nil d t

theorem tokenMatch_chars {cs tok r : List Char}
    (h : tokenMatch cs = some (tok, r)) :
    ∀ c ∈ tok, isLetter c = true ∨ c = aposCh := by
  match cs with
  | [] => exact Option.noConfusion h
  | c :: rest =>
    unfold tokenMatch at h
    by_cases hl : isLetter c = true
    · simp only [hl, if_true, Option.some.injEq, Prod.mk.injEq] at h
      obtain ⟨h1, -⟩ := h
      intro x hx
      rw [← h1] at hx
      rcases List.mem_append.mp hx with h3 | h4
      · exact Or.inl (List.mem_takeWhile_imp h3)
      · exact tokenExtLoop_chars _ _ x h4
    · simp only [Bool.not_eq_true] at hl
      simp [hl] at h

theorem tokenMatch_rest_length {cs tok r : List Char}
    (h : tokenMatch cs = some (tok, r)) : r.length < cs.length := by
  have ha := tokenMatch_append h
  have hn := tokenMatch_ne_nil h
  rw [← ha, List.length_append]
  have : 0 < tok.length := List.length_pos.mpr hn
  omega

theorem tokenMatch_none_of_not_letter {c : Char} {rest : List Char}
    (h : isLetter c = false) : tokenMatch (c :: rest) = none := by
  unfold tokenMatch
  simp [h]

theorem tokenMatch_nil : tokenMatch [] = none := rfl

/-! ### The copy loop of `sanitize_and_format` (llm_loop, lines 466-500)

`scanLoopF` models the Ruby `while i < n` scan: at each position a token match
is tried first; on a match the loop stops (Ruby `break`) once `max_tokens`
tokens were copied, otherwise the token is appended (preceded by a separating
space unless the previous appended element was a space, comma or full stop).
Whitespace inserts a single pending space, a comma or full stop removes a
pending space and is appended followed by a space, and any other character is
dropped.  `out_chars` is kept in reverse order (`outRev`, most recent element
first), so Ruby `out_chars.last` is `outRev` head and `out_chars.pop` is its
tail.  The fuel argument is instantiated with the text length; every step
consumes at least one character, so the fuel is never exhausted.
-/

structure ScanAcc where
  outRev : List (List Char)
  wc : Nat
  lws : Bool

def needSep : List (List Char) → Bool
  | [] => false
  | e :: _ => !(e = [spCh] || e = [commaCh] || e = [dotCh])

def popSp : List (List Char) → List (List Char)
  | e :: t => if e = [spCh] then t else e :: t
  | [] => []

def scanLoopF (maxT : Nat) : Nat → List Char → ScanAcc → ScanAcc
  | 0, _, acc => acc
  | _ + 1, [], acc => acc
  | fuel + 1, c :: rest, acc =>
    match tokenMatch (c :: rest) with
    | some (tok, r2) =>
      if maxT ≤ acc.wc then acc
      else
        let out1 := if needSep acc.outRev then [spCh] :: acc.outRev else acc.outRev
        scanLoopF maxT fuel r2 ⟨tok :: out1, acc.wc + 1, false⟩
    | none =>
      if isSpaceCh c then
        if !acc.outRev.isEmpty && !acc.lws then
          scanLoopF maxT fuel rest ⟨[spCh] :: acc.outRev, acc.wc, true⟩
        else scanLoopF maxT fuel rest acc
      else if c = commaCh || c = dotCh then
        if acc.outRev.isEmpty then scanLoopF maxT fuel rest acc
        else scanLoopF maxT fuel rest ⟨[spCh] :: [c] :: popSp acc.outRev, acc.wc, true⟩
      else scanLoopF maxT fuel rest acc

def scanText (maxT : Nat) (cs : List Char) : ScanAcc :=
  scanLoopF maxT cs.length cs ⟨[], 0, false⟩

def scanChars (acc : ScanAcc) : List Char :=
  acc.outRev.reverse.flatten

/-! ### Preprocessing (llm_loop, lines 455-464)

`raw.split("\n")`, popping trailing blank lines, popping a trailing `END`
control line, stripping and joining the lines with single spaces, normalizing
the Unicode single quotes to an apostrophe, and truncating at the first full
stop (keeping it).  Ruby's `split` drops trailing empty fields; the model
keeps them and lets the identical trailing-blank-line pop remove them, which
yields the same line list.
-/

def splitNlF : Nat → List Char → List (List Char)
  | 0, cs => [cs]
  | fuel + 1, cs =>
    let line := cs.takeWhile (fun c => !(c = nlCh))
    match cs.dropWhile (fun c => !(c = nlCh)) with
    | [] => [line]
    | _ :: rest2 => line :: splitNlF fuel rest2

def splitNl (cs : List Char) : List (List Char) :=
  splitNlF cs.length cs

def dropTrailingBlank (ls : List (List Char)) : List (List Char) :=
  (ls.reverse.dropWhile (fun l => (stripList l).isEmpty)).reverse

def dropEndMarker (ls : List (List Char)) : List (List Char) :=
  match ls.getLast? with
  | some l => if stripList l = ['E', 'N', 'D'] then ls.dropLast else ls
  | none => ls

def joinWith (sep : Char) : List (List Char) → List Char
  | [] => []
  | [l] => l
  | l :: l2 :: ls => l ++ sep :: joinWith sep (l2 :: ls)

def normQuote (c : Char) : Char :=
  if c = rsqCh || c = lsqCh then aposCh else c

def truncAtDot : List Char → List Char
  | [] => []
  | c :: cs => if c = dotCh then [dotCh] else c :: truncAtDot cs

def preprocessText (raw : List Char) : List Char :=
  let ls := dropEndMarker (dropTrailingBlank (splitNl raw))
  let t := joinWith spCh ((ls.map stripList).filter (fun l => !l.isEmpty))
  truncAtDot (t.map normQuote)

/-! ### Trailing trim and full stop (llm_loop, lines 502-506)

`trimmed = out_chars.join.strip`; when nonempty and not already ending in a
full stop, the trailing run of whitespace and commas is removed
(`sub(/[\s,]+$/, '')`) and a full stop is appended.
-/

def finalizeDot (cs : List Char) : List Char :=
  let t := stripList cs
  if t.isEmpty then t
  else if t.getLast? = some dotCh then t
  else rStrip (fun c => isSpaceCh c || c = commaCh) t ++ [dotCh]

/-! ### `wrap_to_width` (llm_loop, lines 427-452)

Greedy word wrap: words are the maximal whitespace-free runs (Ruby
`text.split(/\s+/)`; a leading empty field produced by Ruby for leading
whitespace satisfies neither branch condition and is a no-op in the loop, so
dropping it is behavior-preserving).  A word longer than `cols` flushes the
current line and becomes its own line.
-/

def splitWsF : Nat → List Char → List (List Char)
  | 0, _ => []
  | _ + 1, [] => []
  | fuel + 1, c :: rest =>
    if isSpaceCh c then splitWsF fuel rest
    else (c :: rest.takeWhile (fun d => !isSpaceCh d)) ::
      splitWsF fuel (rest.dropWhile (fun d => !isSpaceCh d))

def splitWs (cs : List Char) : List (List Char) :=
  splitWsF cs.length cs

def wrapLoop (cols : Nat) : List (List Char) → List (List Char) → List Char → List (List Char)
  | [], lines, current => if current.isEmpty then lines else lines ++ [current]
  | w :: ws, lines, current =>
    if cols < w.length then
      wrapLoop cols ws ((if current.isEmpty then lines else lines ++ [current]) ++ [w]) []
    else if current.isEmpty then
      wrapLoop cols ws lines w
    else if current.length + 1 + w.length ≤ cols then
      wrapLoop cols ws lines (current ++ spCh :: w)
    else
      wrapLoop cols ws (lines ++ [current]) w

def wrapLines (text : List Char) (cols : Nat) : List (List Char) :=
  wrapLoop cols (splitWs text) [] []

def wrap_to_width (text : List Char) (cols : Nat) : List Char :=
  joinWith nlCh (wrapLines text cols)

/-! ### `sanitize_and_format` (llm_loop, lines 454-512)

The full pipeline.  Ruby joins the wrapped lines with `"\n"`, splits them
again and keeps the first `max_lines`; since no wrapped line is empty or
contains a newline, this equals taking the first `max_lines` wrapped lines
directly.
-/

def sanitizeLines (raw : List Char) (maxT maxL width : Nat) : List (List Char) :=
  (wrapLines (finalizeDot (scanChars (scanText maxT (preprocessText raw)))) width).take maxL

def sanitize_and_format (raw : String) (maxT maxL width : Nat) : String :=
  String.mk (joinWith nlCh (sanitizeLines raw.data maxT maxL width))

/-- The background loop (llm_loop, line 681) appends the newline terminator
unless the formatted text already ends with one
(Ruby `formatted.end_with?("\\n")` tests whether the last character is a
newline). -/
def payloadOf (formatted : List Char) : List Char :=
  if formatted.getLast? = some nlCh then formatted else formatted ++ [nlCh]

/-! ### Scan output invariants

Elements of `outRev` are a single space, a single comma, a single full stop,
or a copied token (nonempty, letters and apostrophes, starting with a
letter).  `revPairsOK` constrains adjacent elements (`x` is the later one in
string order): no space element directly before a punctuation element, a
punctuation element is directly followed by a space or punctuation element,
and no two adjacent space elements.  The bottom (first) element is always
a token, the top (last) element never punctuation, and `lws` mirrors
"top element is a space".
-/

def charOKtok (c : Char) : Bool := isLetter c || c = aposCh

def isTokenElem : List Char → Bool
  | [] => false
  | c :: t => isLetter c && (c :: t).all charOKtok

def isPunctElem (e : List Char) : Bool := e = [commaCh] || e = [dotCh]

def elemOK (e : List Char) : Bool :=
  e = [spCh] || isPunctElem e || isTokenElem e

def pairCond (x y : List Char) : Bool :=
  (!(isPunctElem x) || !(y = [spCh])) &&
  (!(isPunctElem y) || (x = [spCh] || isPunctElem x)) &&
  (!(x = [spCh]) || !(y = [spCh]))

def revPairsOK : List (List Char) → Bool
  | x :: y :: rest => pairCond x y && revPairsOK (y :: rest)
  | _ => true

def headNotPunct : List (List Char) → Bool
  | [] => true
  | e :: _ => !(isPunctElem e)

def lastIsToken (o : List (List Char)) : Bool :=
  match o.getLast? with
  | some e => isTokenElem e
  | none => true

def lwsOf (o : List (List Char)) : Bool :=
  match o with
  | e :: _ => e = [spCh]
  | [] => false

def outInv (o : List (List Char)) : Prop :=
  (∀ e ∈ o, elemOK e = true) ∧ revPairsOK o = true ∧
    headNotPunct o = true ∧ lastIsToken o = true

def accInv (acc : ScanAcc) : Prop :=
  outInv acc.outRev ∧ acc.lws = lwsOf acc.outRev

theorem revPairsOK_tail {x : List Char} {t : List (List Char)}
    (h : revPairsOK (x :: t) = true) : revPairsOK t = true := by
  match t with
  | [] => rfl
  | y :: rest =>
    rw [show revPairsOK (x :: y :: rest) = (pairCond x y && revPairsOK (y :: rest)) from rfl] at h
    exact (Bool.and_eq_true_iff.mp h).2

theorem revPairsOK_cons {x y : List Char} {t : List (List Char)}
    (h1 : pairCond x y = true) (h2 : revPairsOK (y :: t) = true) :
    revPairsOK (x :: y :: t) = true := by
  rw [show revPairsOK (x :: y :: t) = (pairCond x y && revPairsOK (y :: t)) from rfl]
  exact Bool.and_eq_true_iff.mpr ⟨h1, h2⟩

theorem revPairsOK_pair {x y : List Char} {t : List (List Char)}
    (h : revPairsOK (x :: y :: t) = true) : pairCond x y = true := by
  rw [show revPairsOK (x :: y :: t) = (pairCond x y && revPairsOK (y :: t)) from rfl] at h
  exact (Bool.and_eq_true_iff.mp h).1

theorem isTokenElem_ne_nil {tok : List Char} (h : isTokenElem tok = true) : tok ≠ [] := by
  intro he; rw [he] at h; exact Bool.noConfusion h

theorem isTokenElem_head {tok : List Char} (h : isTokenElem tok = true) :
    ∃ c t, tok = c :: t ∧ isLetter c = true := by
  match tok with
  | [] => exact Bool.noConfusion h
  | c :: t =>
    refine ⟨c, t, rfl, ?_⟩
    unfold isTokenElem at h
    exact (Bool.and_eq_true_iff.mp h).1

theorem isTokenElem_chars {tok : List Char} (h : isTokenElem tok = true) :
    ∀ c ∈ tok, charOKtok c = true := by
  match tok with
  | [] => exact Bool.noConfusion h
  | c :: t =>
    unfold isTokenElem at h
    exact List.all_eq_true.mp (Bool.and_eq_true_iff.mp h).2

theorem charOKtok_not_sp {c : Char} (h : charOKtok c = true) : c ≠ spCh := by
  rcases Bool.or_eq_true_iff.mp h with h1 | h2
  · intro he; subst he; exact Bool.noConfusion h1
  · intro he; subst he
    exact absurd (decide_eq_true_eq.mp h2) (by decide)

theorem charOKtok_not_comma {c : Char} (h : charOKtok c = true) : c ≠ commaCh := by
  rcases Bool.or_eq_true_iff.mp h with h1 | h2
  · intro he; subst he; exact Bool.noConfusion h1
  · intro he; subst he
    exact absurd (decide_eq_true_eq.mp h2) (by decide)

theorem charOKtok_not_dot {c : Char} (h : charOKtok c = true) : c ≠ dotCh := by
  rcases Bool.or_eq_true_iff.mp h with h1 | h2
  · intro he; subst he; exact Bool.noConfusion h1
  · intro he; subst he
    exact absurd (decide_eq_true_eq.mp h2) (by decide)

theorem isTokenElem_not_punct {tok : List Char} (h : isTokenElem tok = true) :
    isPunctElem tok = false := by
  obtain ⟨c, t, he, hl⟩ := isTokenElem_head h
  subst he
  have hc := charOKtok_not_comma (isTokenElem_chars h c (List.mem_cons_self c t))
  have hd := charOKtok_not_dot (isTokenElem_chars h c (List.mem_cons_self c t))
  unfold isPunctElem
  rw [Bool.or_eq_false_iff]
  constructor
  · rw [decide_eq_false_iff_not]
    intro he
    rcases List.cons_eq_cons.mp he with ⟨h1, -⟩
    exact hc h1
  · rw [decide_eq_false_iff_not]
    intro he
    rcases List.cons_eq_cons.mp he with ⟨h1, -⟩
    exact hd h1

theorem isTokenElem_ne_sp {tok : List Char} (h : isTokenElem tok = true) :
    tok ≠ [spCh] := by
  obtain ⟨c, t, he, -⟩ := isTokenElem_head h
  subst he
  have hc := charOKtok_not_sp (isTokenElem_chars h c (List.mem_cons_self c t))
  intro hx
  rcases List.cons_eq_cons.mp hx with ⟨h1, -⟩
  exact hc h1

theorem isTokenElem_tokenMatch {cs tok r : List Char}
    (h : tokenMatch cs = some (tok, r)) : isTokenElem tok = true := by
  obtain ⟨c, t, he, hl⟩ := tokenMatch_head h
  have hchars := tokenMatch_chars h
  rw [he]
  unfold isTokenElem
  refine Bool.and_eq_true_iff.mpr ⟨hl, List.all_eq_true.mpr ?_⟩
  intro x hx
  rcases hchars x (he ▸ hx) with h1 | h2
  · exact Bool.or_eq_true_iff.mpr (Or.inl h1)
  · exact Bool.or_eq_true_iff.mpr (Or.inr (decide_eq_true (by rw [h2])))

theorem pairCond_of {x y : List Char}
    (h1 : isPunctElem x = true → ¬(y = [spCh]))
    (h2 : isPunctElem y = true → x = [spCh] ∨ isPunctElem x = true)
    (h3 : x = [spCh] → ¬(y = [spCh])) : pairCond x y = true := by
  unfold pairCond
  simp only [Bool.and_eq_true, Bool.or_eq_true, Bool.not_eq_true', decide_eq_true_eq,
    decide_eq_false_iff_not]
  refine ⟨⟨?_, ?_⟩, ?_⟩
  · by_cases hp : isPunctElem x = true
    · exact Or.inr (h1 hp)
    · exact Or.inl (Bool.eq_false_iff.mpr hp)
  · by_cases hp : isPunctElem y = true
    · rcases h2 hp with h | h
      · exact Or.inr (Or.inl h)
      · exact Or.inr (Or.inr h)
    · exact Or.inl (Bool.eq_false_iff.mpr hp)
  · by_cases hp : x = [spCh]
    · exact Or.inr (h3 hp)
    · exact Or.inl hp

theorem pairCond_no_sp_before {x y : List Char} (h : pairCond x y = true)
    (hp : isPunctElem x = true) : y ≠ [spCh] := by
  unfold pairCond at h
  simp only [Bool.and_eq_true, Bool.or_eq_true, Bool.not_eq_true', decide_eq_true_eq,
    decide_eq_false_iff_not] at h
  rcases h.1.1 with h1 | h1
  · rw [hp] at h1; exact Bool.noConfusion h1
  · exact h1

theorem pairCond_follow {x y : List Char} (h : pairCond x y = true)
    (hp : isPunctElem y = true) : x = [spCh] ∨ isPunctElem x = true := by
  unfold pairCond at h
  simp only [Bool.and_eq_true, Bool.or_eq_true, Bool.not_eq_true', decide_eq_true_eq,
    decide_eq_false_iff_not] at h
  rcases h.1.2 with h1 | h1
  · rw [hp] at h1; exact Bool.noConfusion h1
  · exact h1

theorem pairCond_no_dbl {x y : List Char} (h : pairCond x y = true)
    (hx : x = [spCh]) : y ≠ [spCh] := by
  unfold pairCond at h
  simp only [Bool.and_eq_true, Bool.or_eq_true, Bool.not_eq_true', decide_eq_true_eq,
    decide_eq_false_iff_not] at h
  rcases h.2 with h1 | h1
  · exact absurd hx h1
  · exact h1

theorem sp_not_punct : isPunctElem [spCh] = false := by decide

theorem punct_single {c : Char} (hc : c = commaCh ∨ c = dotCh) :
    isPunctElem [c] = true := by
  rcases hc with h | h <;> subst h <;> decide

theorem punct_single_ne_sp {c : Char} (hc : c = commaCh ∨ c = dotCh) :
    ([c] : List Char) ≠ [spCh] := by
  rcases hc with h | h <;> subst h <;> decide

theorem lastIsToken_cons {x : List Char} {o : List (List Char)}
    (h : lastIsToken o = true) (ho : o ≠ []) : lastIsToken (x :: o) = true := by
  match o with
  | [] => exact absurd rfl ho
  | y :: t =>
    unfold lastIsToken at h ⊢
    rw [List.getLast?_cons_cons]
    exact h

theorem lastIsToken_tail_of_sp {o : List (List Char)}
    (h : lastIsToken ([spCh] :: o) = true) (ho : o ≠ []) : lastIsToken o = true := by
  match o with
  | [] => exact absurd rfl ho
  | y :: t =>
    unfold lastIsToken at h ⊢
    rw [List.getLast?_cons_cons] at h
    exact h

theorem lastIsToken_sp_ne_nil {o : List (List Char)}
    (h : lastIsToken ([spCh] :: o) = true) : o ≠ [] := by
  intro he
  subst he
  unfold lastIsToken at h
  simp only [List.getLast?_singleton] at h
  exact absurd h (by decide)

/-- Appending a copied token (with its separating space when needed)
preserves the output invariant, and the new top element is not a space. -/
theorem outInv_push_token {o : List (List Char)} {tok : List Char}
    (ho : outInv o) (htok : isTokenElem tok = true) :
    outInv (tok :: (if needSep o then [spCh] :: o else o)) := by
  obtain ⟨helems, hpairs, hhead, hlast⟩ := ho
  have htok_np := isTokenElem_not_punct htok
  have htok_nsp := isTokenElem_ne_sp htok
  have helemtok : elemOK tok = true := by
    unfold elemOK
    rw [htok, Bool.or_true]
  match o with
  | [] =>
    rw [show needSep [] = false from rfl]
    simp only [Bool.false_eq_true, if_false]
    refine ⟨?_, rfl, ?_, ?_⟩
    · intro e he
      rw [List.mem_singleton] at he
      rw [he]; exact helemtok
    · show (!(isPunctElem tok)) = true
      rw [htok_np]; rfl
    · unfold lastIsToken
      simp only [List.getLast?_singleton]
      exact htok
  | e :: t =>
    by_cases hsep : needSep (e :: t) = true
    · rw [hsep]
      simp only [if_true]
      have he_nsp : e ≠ [spCh] := by
        unfold needSep at hsep
        rw [Bool.not_eq_true', Bool.or_eq_false_iff, Bool.or_eq_false_iff] at hsep
        rw [decide_eq_false_iff_not] at hsep
        exact hsep.1.1
      refine ⟨?_, ?_, ?_, ?_⟩
      · intro x hx
        rcases List.mem_cons.mp hx with h1 | h2
        · rw [h1]; exact helemtok
        · rcases List.mem_cons.mp h2 with h3 | h4
          · rw [h3]; unfold elemOK; rw [Bool.or_eq_true_iff]; exact Or.inl (by decide)
          · exact helems x h4
      · refine revPairsOK_cons ?_ (revPairsOK_cons ?_ hpairs)
        · exact pairCond_of (fun hp => absurd hp (by rw [htok_np]; exact Bool.noConfusion))
            (fun hp => absurd hp (by rw [sp_not_punct]; exact Bool.noConfusion))
            (fun hp => absurd hp htok_nsp)
        · exact pairCond_of (fun hp => absurd hp (by rw [sp_not_punct]; exact Bool.noConfusion))
            (fun _ => Or.inl rfl)
            (fun _ => he_nsp)
      · show (!(isPunctElem tok)) = true
        rw [htok_np]; rfl
      · exact lastIsToken_cons (lastIsToken_cons hlast (List.cons_ne_nil e t))
          (List.cons_ne_nil [spCh] (e :: t))
    · rw [Bool.not_eq_true] at hsep
      rw [hsep]
      simp only [Bool.false_eq_true, if_false]
      have he_sp : e = [spCh] := by
        have hsep2 : (!(decide (e = [spCh]) || decide (e = [commaCh]) ||
            decide (e = [dotCh]))) = false := hsep
        rw [Bool.not_eq_false'] at hsep2
        rcases Bool.or_eq_true_iff.mp hsep2 with h1 | h2
        · rcases Bool.or_eq_true_iff.mp h1 with h3 | h4
          · exact decide_eq_true_eq.mp h3
          · exfalso
            have : isPunctElem e = true := by
              unfold isPunctElem
              rw [Bool.or_eq_true_iff]; exact Or.inl h4
            unfold headNotPunct at hhead
            rw [Bool.not_eq_true', this] at hhead
            exact Bool.noConfusion hhead
        · exfalso
          have : isPunctElem e = true := by
            unfold isPunctElem
            rw [Bool.or_eq_true_iff]; exact Or.inr h2
          unfold headNotPunct at hhead
          rw [Bool.not_eq_true', this] at hhead
          exact Bool.noConfusion hhead
      refine ⟨?_, ?_, ?_, ?_⟩
      · intro x hx
        rcases List.mem_cons.mp hx with h1 | h2
        · rw [h1]; exact helemtok
        · exact helems x h2
      · refine revPairsOK_cons ?_ hpairs
        exact pairCond_of (fun hp => absurd hp (by rw [htok_np]; exact Bool.noConfusion))
          (fun hp => False.elim (by rw [he_sp, sp_not_punct] at hp; exact Bool.noConfusion hp))
          (fun hp => absurd hp htok_nsp)
      · show (!(isPunctElem tok)) = true
        rw [htok_np]; rfl
      · exact lastIsToken_cons hlast (List.cons_ne_nil e t)

/-- Appending a pending space preserves the output invariant (only done when
the output is nonempty and the top element is not already a space). -/
theorem outInv_push_space {o : List (List Char)}
    (ho : outInv o) (hne : o ≠ []) (hhead_nsp : lwsOf o = false) :
    outInv ([spCh] :: o) := by
  obtain ⟨helems, hpairs, hhead, hlast⟩ := ho
  match o with
  | [] => exact absurd rfl hne
  | e :: t =>
    have he_nsp : e ≠ [spCh] := by
      have h2 : (decide (e = [spCh])) = false := hhead_nsp
      exact decide_eq_false_iff_not.mp h2
    refine ⟨?_, ?_, ?_, ?_⟩
    · intro x hx
      rcases List.mem_cons.mp hx with h1 | h2
      · rw [h1]; unfold elemOK; rw [Bool.or_eq_true_iff]; exact Or.inl (by decide)
      · exact helems x h2
    · refine revPairsOK_cons ?_ hpairs
      exact pairCond_of
        (fun hp => absurd hp (by rw [sp_not_punct]; exact Bool.noConfusion))
        (fun _ => Or.inl rfl)
        (fun _ => he_nsp)
    · show (!(isPunctElem [spCh])) = true
      rw [sp_not_punct]; rfl
    · exact lastIsToken_cons hlast (List.cons_ne_nil e t)

/-- Appending a comma or a full stop (after removing a pending space)
preserves the output invariant. -/
theorem outInv_push_punct {o : List (List Char)} {c : Char}
    (ho : outInv o) (hne : o ≠ []) (hc : c = commaCh ∨ c = dotCh) :
    outInv ([spCh] :: [c] :: popSp o) := by
  obtain ⟨helems, hpairs, hhead, hlast⟩ := ho
  have hcp := punct_single hc
  have hcs := punct_single_ne_sp hc
  have helemsp : elemOK [spCh] = true := by
    unfold elemOK; rw [Bool.or_eq_true_iff]; exact Or.inl (by decide)
  have helemc : elemOK [c] = true := by
    unfold elemOK
    rw [Bool.or_eq_true_iff]
    exact Or.inl (by rw [Bool.or_eq_true_iff]; exact Or.inr hcp)
  match o with
  | [] => exact absurd rfl hne
  | e :: t =>
    by_cases hesp : e = [spCh]
    · subst hesp
      have ht_ne : t ≠ [] := lastIsToken_sp_ne_nil hlast
      match t with
      | [] => exact absurd rfl ht_ne
      | f :: t' =>
        have hpop : popSp ([spCh] :: f :: t') = f :: t' := by
          simp [popSp]
        rw [hpop]
        have hf_nsp : f ≠ [spCh] :=
          pairCond_no_dbl (revPairsOK_pair hpairs) rfl
        refine ⟨?_, ?_, ?_, ?_⟩
        · intro x hx
          rcases List.mem_cons.mp hx with h1 | h2
          · rw [h1]; exact helemsp
          · rcases List.mem_cons.mp h2 with h3 | h4
            · rw [h3]; exact helemc
            · exact helems x (List.mem_cons.mpr (Or.inr h4))
        · refine revPairsOK_cons ?_ (revPairsOK_cons ?_ (revPairsOK_tail hpairs))
          · exact pairCond_of
              (fun hp => absurd hp (by rw [sp_not_punct]; exact Bool.noConfusion))
              (fun _ => Or.inl rfl)
              (fun _ => hcs.symm ∘ Eq.symm)
          · exact pairCond_of
              (fun _ => hf_nsp)
              (fun _ => Or.inr hcp)
              (fun hp => absurd hp.symm hcs.symm)
        · show (!(isPunctElem [spCh])) = true
          rw [sp_not_punct]; rfl
        · exact lastIsToken_cons (lastIsToken_cons
            (lastIsToken_tail_of_sp hlast ht_ne) (List.cons_ne_nil f t'))
            (List.cons_ne_nil [c] (f :: t'))
    · have hpop : popSp (e :: t) = e :: t := by
        simp [popSp, hesp]
      rw [hpop]
      have he_nsp_pair : isPunctElem [c] = true → e ≠ [spCh] := fun _ => hesp
      refine ⟨?_, ?_, ?_, ?_⟩
      · intro x hx
        rcases List.mem_cons.mp hx with h1 | h2
        · rw [h1]; exact helemsp
        · rcases List.mem_cons.mp h2 with h3 | h4
          · rw [h3]; exact helemc
          · exact helems x h4
      · refine revPairsOK_cons ?_ (revPairsOK_cons ?_ hpairs)
        · exact pairCond_of
            (fun hp => absurd hp (by rw [sp_not_punct]; exact Bool.noConfusion))
            (fun _ => Or.inl rfl)
            (fun _ => hcs.symm ∘ Eq.symm)
        · exact pairCond_of he_nsp_pair
            (fun _ => Or.inr hcp)
            (fun hp => absurd hp.symm hcs.symm)
      · show (!(isPunctElem [spCh])) = true
        rw [sp_not_punct]; rfl
      · exact lastIsToken_cons (lastIsToken_cons hlast (List.cons_ne_nil e t))
          (List.cons_ne_nil [c] (e :: t))

/-- The scan-loop invariant is preserved along the whole scan. -/
theorem scanLoopF_inv (maxT : Nat) :
    ∀ fuel cs acc, accInv acc → accInv (scanLoopF maxT fuel cs acc) := by
  intro fuel
  induction fuel with
  | zero => intro cs acc h; exact h
  | succ fuel ih =>
    intro cs acc h
    match cs with
    | [] => exact h
    | c :: rest =>
      obtain ⟨ho, hlws⟩ := h
      rcases htm : tokenMatch (c :: rest) with _ | ⟨tok, r2⟩
      · by_cases hsp : isSpaceCh c = true
        · by_cases hcond : (!acc.outRev.isEmpty && !acc.lws) = true
          · have hstep : scanLoopF maxT (fuel + 1) (c :: rest) acc =
                scanLoopF maxT fuel rest ⟨[spCh] :: acc.outRev, acc.wc, true⟩ := by
              simp [scanLoopF, htm, hsp, hcond]
            rw [hstep]
            apply ih
            rcases Bool.and_eq_true_iff.mp hcond with ⟨h1, h2⟩
            rw [Bool.not_eq_true'] at h2
            have hne : acc.outRev ≠ [] := by
              intro he
              rw [he] at h1
              exact absurd h1 (by decide)
            refine ⟨outInv_push_space ho hne ?_, ?_⟩
            · rw [← hlws]; exact h2
            · show true = decide (([spCh] : List Char) = [spCh])
              rw [decide_eq_true rfl]
          · have hstep : scanLoopF maxT (fuel + 1) (c :: rest) acc =
                scanLoopF maxT fuel rest acc := by
              simp [scanLoopF, htm, hsp, hcond]
            rw [hstep]
            exact ih rest acc ⟨ho, hlws⟩
        · rw [Bool.not_eq_true] at hsp
          by_cases hpc : (c = commaCh || c = dotCh) = true
          · by_cases hemp : acc.outRev.isEmpty = true
            · have hstep : scanLoopF maxT (fuel + 1) (c :: rest) acc =
                  scanLoopF maxT fuel rest acc := by
                simp [scanLoopF, htm, hsp, hpc, hemp]
              rw [hstep]
              exact ih rest acc ⟨ho, hlws⟩
            · have hstep : scanLoopF maxT (fuel + 1) (c :: rest) acc =
                  scanLoopF maxT fuel rest
                    ⟨[spCh] :: [c] :: popSp acc.outRev, acc.wc, true⟩ := by
                simp [scanLoopF, htm, hsp, hpc, hemp]
              rw [hstep]
              apply ih
              have hne : acc.outRev ≠ [] := by
                intro he
                rw [he] at hemp
                exact hemp (by rfl)
              have hc' : c = commaCh ∨ c = dotCh := by
                rcases Bool.or_eq_true_iff.mp hpc with h1 | h2
                · exact Or.inl (decide_eq_true_eq.mp h1)
                · exact Or.inr (decide_eq_true_eq.mp h2)
              refine ⟨outInv_push_punct ho hne hc', ?_⟩
              show true = decide (([spCh] : List Char) = [spCh])
              rw [decide_eq_true rfl]
          · have hstep : scanLoopF maxT (fuel + 1) (c :: rest) acc =
                scanLoopF maxT fuel rest acc := by
              simp [scanLoopF, htm, hsp, hpc]
            rw [hstep]
            exact ih rest acc ⟨ho, hlws⟩
      · by_cases hwc : maxT ≤ acc.wc
        · have hstep : scanLoopF maxT (fuel + 1) (c :: rest) acc = acc := by
            simp [scanLoopF, htm, hwc]
          rw [hstep]
          exact ⟨ho, hlws⟩
        · have hstep : scanLoopF maxT (fuel + 1) (c :: rest) acc =
              scanLoopF maxT fuel r2
                ⟨tok :: (if needSep acc.outRev then [spCh] :: acc.outRev else acc.outRev),
                  acc.wc + 1, false⟩ := by
            simp [scanLoopF, htm, hwc]
          rw [hstep]
          apply ih
          have htok := isTokenElem_tokenMatch htm
          refine ⟨outInv_push_token ho htok, ?_⟩
          show false = decide (tok = [spCh])
          rw [decide_eq_false (isTokenElem_ne_sp htok)]

/-! ### From the element invariants to character-level facts about the
joined scan output -/

theorem hasPair_not_mem {a b : Char} {l : List Char} (h : a ∉ l) :
    hasPair a b l = false := by
  induction l with
  | nil => rfl
  | cons c t ih =>
    match t with
    | [] => rfl
    | d :: rest =>
      rw [hasPair_cons_cons]
      rw [Bool.or_eq_false_iff]
      constructor
      · rw [Bool.and_eq_false_iff]
        left
        rw [decide_eq_false_iff_not]
        intro he
        exact h (he ▸ List.mem_cons_self c (d :: rest))
      · exact ih (fun hm => h (List.mem_cons_of_mem c hm))

theorem elemOK_ne_nil {e : List Char} (h : elemOK e = true) : e ≠ [] := by
  unfold elemOK at h
  rcases Bool.or_eq_true_iff.mp h with h1 | h2
  · rcases Bool.or_eq_true_iff.mp h1 with h3 | h4
    · rw [decide_eq_true_eq.mp h3]; exact List.cons_ne_nil spCh []
    · unfold isPunctElem at h4
      rcases Bool.or_eq_true_iff.mp h4 with h5 | h6
      · rw [decide_eq_true_eq.mp h5]; exact List.cons_ne_nil commaCh []
      · rw [decide_eq_true_eq.mp h6]; exact List.cons_ne_nil dotCh []
  · exact isTokenElem_ne_nil h2

/-- An element containing a space is the space element. -/
theorem elemOK_sp_mem {e : List Char} (h : elemOK e = true) (hm : spCh ∈ e) :
    e = [spCh] := by
  unfold elemOK at h
  rcases Bool.or_eq_true_iff.mp h with h1 | h2
  · rcases Bool.or_eq_true_iff.mp h1 with h3 | h4
    · exact decide_eq_true_eq.mp h3
    · exfalso
      unfold isPunctElem at h4
      rcases Bool.or_eq_true_iff.mp h4 with h5 | h6
      · rw [decide_eq_true_eq.mp h5] at hm
        rw [List.mem_singleton] at hm
        exact absurd hm.symm (by decide)
      · rw [decide_eq_true_eq.mp h6] at hm
        rw [List.mem_singleton] at hm
        exact absurd hm.symm (by decide)
  · exact absurd hm (fun hm => charOKtok_not_sp (isTokenElem_chars h2 spCh hm) rfl)

/-- An element containing a comma or full stop is that singleton. -/
theorem elemOK_punct_mem {e : List Char} {b : Char} (h : elemOK e = true)
    (hb : b = commaCh ∨ b = dotCh) (hm : b ∈ e) : e = [b] := by
  unfold elemOK at h
  rcases Bool.or_eq_true_iff.mp h with h1 | h2
  · rcases Bool.or_eq_true_iff.mp h1 with h3 | h4
    · exfalso
      rw [decide_eq_true_eq.mp h3] at hm
      rw [List.mem_singleton] at hm
      rcases hb with h | h <;> rw [h] at hm <;> exact absurd hm (by decide)
    · unfold isPunctElem at h4
      rcases Bool.or_eq_true_iff.mp h4 with h5 | h6
      · rw [decide_eq_true_eq.mp h5] at hm ⊢
        rw [List.mem_singleton] at hm
        rw [hm]
      · rw [decide_eq_true_eq.mp h6] at hm ⊢
        rw [List.mem_singleton] at hm
        rw [hm]
  · exfalso
    have := isTokenElem_chars h2 b hm
    rcases hb with h | h
    · exact charOKtok_not_comma this (by rw [h])
    · exact charOKtok_not_dot this (by rw [h])

theorem elemOK_no_inner_pair {e : List Char} {a b : Char} (h : elemOK e = true)
    (hab : a = spCh ∨ a = commaCh ∨ a = dotCh) :
    hasPair a b e = false := by
  by_cases hm : a ∈ e
  · have he : e = [a] := by
      rcases hab with h1 | h2 | h3
      · exact h1 ▸ elemOK_sp_mem h (h1 ▸ hm)
      · exact h2 ▸ elemOK_punct_mem h (Or.inl rfl) (h2 ▸ hm)
      · exact h3 ▸ elemOK_punct_mem h (Or.inr rfl) (h3 ▸ hm)
    rw [he]
    exact hasPair_single a b a
  · exact hasPair_not_mem hm

/-- The last character of the flattened output identifies the top element of
`outRev` when it ends in a space or punctuation character. -/
theorem flatten_getLast_elem {o : List (List Char)} {x : Char}
    (helems : ∀ e ∈ o, elemOK e = true)
    (h : (o.reverse.flatten).getLast? = some x) :
    ∃ f t, o = f :: t ∧ x ∈ f := by
  match o with
  | [] => rw [show (([] : List (List Char)).reverse.flatten) = [] from rfl] at h
          exact Option.noConfusion h
  | f :: t =>
    refine ⟨f, t, rfl, ?_⟩
    rw [List.reverse_cons, List.flatten_append] at h
    rw [show ([f] : List (List Char)).flatten = f ++ [] from rfl, List.append_nil] at h
    rw [List.getLast?_append] at h
    have hf_ne : f ≠ [] := elemOK_ne_nil (helems f (List.mem_cons_self f t))
    have : f.getLast? = some x := by
      match hg : f.getLast? with
      | some y =>
        rw [hg] at h
        simp only [Option.or_some, Option.some.injEq] at h
        rw [h]
      | none =>
        exact absurd (List.getLast?_eq_none_iff.mp hg) hf_ne
    exact List.mem_of_getLast?_eq_some this

theorem isPunctElem_cases {e : List Char} (h : isPunctElem e = true) :
    e = [commaCh] ∨ e = [dotCh] := by
  unfold isPunctElem at h
  rcases Bool.or_eq_true_iff.mp h with h1 | h2
  · exact Or.inl (decide_eq_true_eq.mp h1)
  · exact Or.inr (decide_eq_true_eq.mp h2)

/-- No space character directly precedes a comma or full stop in the joined
scan output. -/
theorem flatten_no_sp_punct {o : List (List Char)} {b : Char}
    (helems : ∀ e ∈ o, elemOK e = true) (hpairs : revPairsOK o = true)
    (hb : b = commaCh ∨ b = dotCh) :
    hasPair spCh b o.reverse.flatten = false := by
  induction o with
  | nil => rfl
  | cons e t ih =>
    rw [List.reverse_cons, List.flatten_append,
      show ([e] : List (List Char)).flatten = e ++ [] from rfl, List.append_nil]
    refine hasPair_append_false
      (ih (fun x hx => helems x (List.mem_cons_of_mem e hx)) (revPairsOK_tail hpairs)) ?_ ?_
    · exact elemOK_no_inner_pair (helems e (List.mem_cons_self e t)) (Or.inl rfl)
    · rintro ⟨hgl, hhd⟩
      obtain ⟨f, t', ht, hmf⟩ := flatten_getLast_elem
        (fun x hx => helems x (List.mem_cons_of_mem e hx)) hgl
      have hf_sp : f = [spCh] :=
        elemOK_sp_mem (helems f (ht ▸ List.mem_cons_of_mem e (List.mem_cons_self f t'))) hmf
      have he_pb : e = [b] := by
        have hbe : b ∈ e := by
          match e, hhd with
          | x :: rest, hhd =>
            rw [List.head?_cons, Option.some.injEq] at hhd
            rw [hhd]
            exact List.mem_cons_self b rest
        exact elemOK_punct_mem (helems e (List.mem_cons_self e t)) hb hbe
      have hpe : isPunctElem e = true := by
        rw [he_pb]
        exact punct_single hb
      have hpc : pairCond e f = true := by
        rw [ht] at hpairs
        exact revPairsOK_pair hpairs
      exact pairCond_no_sp_before hpc hpe (hf_sp)

/-- In the joined scan output, a comma or full stop is only ever directly
followed by a space, a comma or a full stop. -/
theorem flatten_punct_follow {o : List (List Char)} {p z : Char}
    (helems : ∀ e ∈ o, elemOK e = true) (hpairs : revPairsOK o = true)
    (hp : p = commaCh ∨ p = dotCh)
    (h : hasPair p z o.reverse.flatten = true) :
    z = spCh ∨ z = commaCh ∨ z = dotCh := by
  induction o with
  | nil => exact absurd h (by simp [hasPair])
  | cons e t ih =>
    rw [List.reverse_cons, List.flatten_append,
      show ([e] : List (List Char)).flatten = e ++ [] from rfl, List.append_nil] at h
    rcases (hasPair_append p z _ e).mp h with h1 | h2 | ⟨hgl, hhd⟩
    · exact ih (fun x hx => helems x (List.mem_cons_of_mem e hx)) (revPairsOK_tail hpairs) h1
    · exfalso
      have : hasPair p z e = false :=
        elemOK_no_inner_pair (helems e (List.mem_cons_self e t))
          (Or.inr hp)
      rw [this] at h2
      exact Bool.noConfusion h2
    · obtain ⟨f, t', ht, hmf⟩ := flatten_getLast_elem
        (fun x hx => helems x (List.mem_cons_of_mem e hx)) hgl
      have hf_p : f = [p] :=
        elemOK_punct_mem (helems f (ht ▸ List.mem_cons_of_mem e (List.mem_cons_self f t'))) hp hmf
      have hpf : isPunctElem f = true := by
        rw [hf_p]
        exact punct_single hp
      have hpc : pairCond e f = true := by
        rw [ht] at hpairs
        exact revPairsOK_pair hpairs
      rcases pairCond_follow hpc hpf with hsp | hpe
      · left
        rw [hsp] at hhd
        rw [List.head?_cons, Option.some.injEq] at hhd
        exact hhd.symm
      · rcases isPunctElem_cases hpe with h1 | h1 <;> rw [h1] at hhd <;>
          rw [List.head?_cons, Option.some.injEq] at hhd
        · exact Or.inr (Or.inl hhd.symm)
        · exact Or.inr (Or.inr hhd.symm)

/-- All characters of the joined scan output are letters, apostrophes,
spaces, commas or full stops. -/
def scanCharOK (c : Char) : Bool :=
  isLetter c || c = aposCh || c = spCh || c = commaCh || c = dotCh

theorem elemOK_chars {e : List Char} (h : elemOK e = true) :
    ∀ c ∈ e, scanCharOK c = true := by
  intro c hc
  unfold elemOK at h
  unfold scanCharOK
  rcases Bool.or_eq_true_iff.mp h with h1 | h2
  · rcases Bool.or_eq_true_iff.mp h1 with h3 | h4
    · rw [decide_eq_true_eq.mp h3, List.mem_singleton] at hc
      rw [hc]; decide
    · rcases isPunctElem_cases h4 with h5 | h5 <;> rw [h5, List.mem_singleton] at hc <;>
        rw [hc] <;> decide
  · rcases Bool.or_eq_true_iff.mp (isTokenElem_chars h2 c hc) with h3 | h4
    · rw [h3]; rfl
    · rw [decide_eq_true_eq.mp h4]; decide

theorem flatten_chars {o : List (List Char)}
    (helems : ∀ e ∈ o, elemOK e = true) :
    ∀ c ∈ o.reverse.flatten, scanCharOK c = true := by
  intro c hc
  rw [List.mem_flatten] at hc
  obtain ⟨l, hl, hcl⟩ := hc
  rw [List.mem_reverse] at hl
  exact elemOK_chars (helems l hl) c hcl

/-- The first character of the joined scan output is a letter (the bottom
element is always a token). -/
theorem flatten_head_letter {o : List (List Char)}
    (helems : ∀ e ∈ o, elemOK e = true) (hlast : lastIsToken o = true)
    (hne : o ≠ []) :
    ∃ c cs, o.reverse.flatten = c :: cs ∧ isLetter c = true := by
  induction o with
  | nil => exact absurd rfl hne
  | cons e t ih =>
    match t with
    | [] =>
      have htok : isTokenElem e = true := by
        unfold lastIsToken at hlast
        simp only [List.getLast?_singleton] at hlast
        exact hlast
      obtain ⟨c, cs, hec, hl⟩ := isTokenElem_head htok
      refine ⟨c, cs, ?_, hl⟩
      rw [show ([e] : List (List Char)).reverse.flatten = e ++ [] from rfl, List.append_nil]
      exact hec
    | f :: t' =>
      have hlt : lastIsToken (f :: t') = true := by
        unfold lastIsToken at hlast ⊢
        rw [List.getLast?_cons_cons] at hlast
        exact hlast
      obtain ⟨c, cs, hfc, hl⟩ := ih (fun x hx => helems x (List.mem_cons_of_mem e hx)) hlt
        (List.cons_ne_nil f t')
      refine ⟨c, cs ++ e, ?_, hl⟩
      rw [List.reverse_cons, List.flatten_append,
        show ([e] : List (List Char)).flatten = e ++ [] from rfl, List.append_nil, hfc]
      rfl

/-! ### Facts about the trimmed text `finalizeDot (scanChars ...)` -/

theorem outInv_nil : outInv [] :=
  ⟨fun e he => absurd he (List.not_mem_nil e), rfl, rfl, rfl⟩

theorem scanText_inv (maxT : Nat) (cs : List Char) : accInv (scanText maxT cs) :=
  scanLoopF_inv maxT cs.length cs ⟨[], 0, false⟩ ⟨outInv_nil, rfl⟩

theorem hasPair_up_left {a b : Char} {x y : List Char} (h : hasPair a b y = true) :
    hasPair a b (x ++ y) = true :=
  (hasPair_append a b x y).mpr (Or.inr (Or.inl h))

theorem hasPair_up_right {a b : Char} {x y : List Char} (h : hasPair a b x = true) :
    hasPair a b (x ++ y) = true :=
  (hasPair_append a b x y).mpr (Or.inl h)

theorem hasPair_up_stripList {a b : Char} {cs : List Char}
    (h : hasPair a b (stripList cs) = true) : hasPair a b cs = true := by
  obtain ⟨pre, suf, hd, -, -⟩ := stripList_decomp cs
  rw [hd, List.append_assoc]
  exact hasPair_up_left (hasPair_up_right h)

theorem rStrip_getLast_not {p : Char → Bool} {l : List Char} {c : Char}
    (h : (rStrip p l).getLast? = some c) : p c = false := by
  have hrev : (rStrip p l).getLast? = (l.reverse.dropWhile p).head? := by
    rw [List.getLast?_eq_head?_reverse]
    unfold rStrip
    rw [List.reverse_reverse]
  rw [hrev] at h
  have := List.head?_dropWhile_not p l.reverse
  rw [h] at this
  exact this

theorem rStrip_head {p : Char → Bool} {l : List Char} {c : Char}
    (hc : l.head? = some c) (hp : p c = false) : (rStrip p l).head? = some c := by
  obtain ⟨suf, hd, hs⟩ := rStrip_decomp p l
  match hr : rStrip p l with
  | [] =>
    exfalso
    rw [hr, List.nil_append] at hd
    have : c ∈ suf := by
      subst hd
      exact List.mem_of_mem_head? hc
    rw [hs c this] at hp
    exact Bool.noConfusion hp
  | x :: r' =>
    rw [hr, List.cons_append] at hd
    rw [hd, List.head?_cons, Option.some.injEq] at hc
    rw [List.head?_cons, hc]

theorem stripList_head {cs : List Char} {c : Char}
    (hc : cs.head? = some c) (hsp : isSpaceCh c = false) :
    (stripList cs).head? = some c := by
  unfold stripList
  match cs, hc with
  | x :: rest, hc =>
    rw [List.head?_cons, Option.some.injEq] at hc
    subst hc
    rw [List.dropWhile_cons_of_neg (by rw [hsp]; exact Bool.noConfusion)]
    exact rStrip_head (List.head?_cons) hsp

theorem isLetter_ne_comma {c : Char} (h : isLetter c = true) : c ≠ commaCh := by
  intro he
  rw [he] at h
  exact absurd h (by decide)

theorem isLetter_ne_dot {c : Char} (h : isLetter c = true) : c ≠ dotCh := by
  intro he
  rw [he] at h
  exact absurd h (by decide)

theorem isLetter_ne_sp {c : Char} (h : isLetter c = true) : c ≠ spCh := by
  intro he
  rw [he] at h
  exact absurd h (by decide)

theorem isLetter_ne_nl {c : Char} (h : isLetter c = true) : c ≠ nlCh := by
  intro he
  rw [he] at h
  exact absurd h (by decide)

/-- `finalizeDot` never creates a space-before-punctuation pair. -/
theorem finalizeDot_no_sp_punct {b : Char} {cs : List Char}
    (h : hasPair spCh b cs = false) :
    hasPair spCh b (finalizeDot cs) = false := by
  unfold finalizeDot
  have ht : hasPair spCh b (stripList cs) = false := hasPair_stripList h
  by_cases h1 : (stripList cs).isEmpty = true
  · rw [if_pos h1]; exact ht
  · rw [if_neg h1]
    by_cases h2 : (stripList cs).getLast? = some dotCh
    · rw [if_pos h2]; exact ht
    · rw [if_neg h2]
      have hr : hasPair spCh b (rStrip (fun c => isSpaceCh c || c = commaCh) (stripList cs)) = false := by
        obtain ⟨suf, hd, -⟩ := rStrip_decomp (fun c => isSpaceCh c || c = commaCh) (stripList cs)
        rw [hd] at ht
        exact hasPair_of_prefix ht
      refine hasPair_append_false hr (hasPair_single spCh b dotCh) ?_
      rintro ⟨hgl, -⟩
      have := rStrip_getLast_not hgl
      rw [Bool.or_eq_false_iff] at this
      rw [spCh_isSpace] at this
      exact Bool.noConfusion this.1

/-- `finalizeDot` only lets a comma be followed by a space, comma or stop. -/
theorem finalizeDot_comma_follow {z : Char} {cs : List Char}
    (hcs : ∀ y, hasPair commaCh y cs = true → y = spCh ∨ y = commaCh ∨ y = dotCh)
    (h : hasPair commaCh z (finalizeDot cs) = true) :
    z = spCh ∨ z = commaCh ∨ z = dotCh := by
  unfold finalizeDot at h
  by_cases h1 : (stripList cs).isEmpty = true
  · rw [if_pos h1] at h
    exact hcs z (hasPair_up_stripList h)
  · rw [if_neg h1] at h
    by_cases h2 : (stripList cs).getLast? = some dotCh
    · rw [if_pos h2] at h
      exact hcs z (hasPair_up_stripList h)
    · rw [if_neg h2] at h
      rcases (hasPair_append commaCh z _ [dotCh]).mp h with h3 | h3 | ⟨hgl, -⟩
      · obtain ⟨suf, hd, -⟩ := rStrip_decomp (fun c => isSpaceCh c || c = commaCh) (stripList cs)
        refine hcs z (hasPair_up_stripList ?_)
        rw [hd]
        exact hasPair_up_right h3
      · exact absurd h3 (by rw [hasPair_single]; exact Bool.noConfusion)
      · exfalso
        have := rStrip_getLast_not hgl
        rw [Bool.or_eq_false_iff, decide_eq_false_iff_not] at this
        exact this.2 rfl

theorem mem_finalizeDot {c : Char} {cs : List Char} (h : c ∈ finalizeDot cs) :
    c ∈ cs ∨ c = dotCh := by
  unfold finalizeDot at h
  by_cases h1 : (stripList cs).isEmpty = true
  · rw [if_pos h1] at h
    exact Or.inl (mem_stripList h)
  · rw [if_neg h1] at h
    by_cases h2 : (stripList cs).getLast? = some dotCh
    · rw [if_pos h2] at h
      exact Or.inl (mem_stripList h)
    · rw [if_neg h2] at h
      rcases List.mem_append.mp h with h3 | h3
      · obtain ⟨suf, hd, -⟩ := rStrip_decomp (fun c => isSpaceCh c || c = commaCh) (stripList cs)
        refine Or.inl (mem_stripList ?_)
        rw [hd]
        exact List.mem_append.mpr (Or.inl h3)
      · rw [List.mem_singleton] at h3
        exact Or.inr h3

theorem finalizeDot_head {cs : List Char} {c : Char}
    (hc : (stripList cs).head? = some c) (hl : isLetter c = true) :
    (finalizeDot cs).head? = some c := by
  unfold finalizeDot
  by_cases h1 : (stripList cs).isEmpty = true
  · exfalso
    rw [List.isEmpty_iff] at h1
    rw [h1] at hc
    exact Option.noConfusion hc
  · rw [if_neg h1]
    by_cases h2 : (stripList cs).getLast? = some dotCh
    · rw [if_pos h2]; exact hc
    · rw [if_neg h2]
      rw [List.head?_append]
      have hp : (fun c => isSpaceCh c || c = commaCh) c = false := by
        rw [Bool.or_eq_false_iff]
        exact ⟨isLetter_not_space hl, decide_eq_false (isLetter_ne_comma hl)⟩
      rw [rStrip_head hc hp]
      rfl

theorem finalizeDot_ends (cs : List Char) :
    finalizeDot cs = [] ∨ (finalizeDot cs).getLast? = some dotCh := by
  unfold finalizeDot
  by_cases h1 : (stripList cs).isEmpty = true
  · rw [if_pos h1]
    exact Or.inl (List.isEmpty_iff.mp h1)
  · rw [if_neg h1]
    by_cases h2 : (stripList cs).getLast? = some dotCh
    · rw [if_pos h2]; exact Or.inr h2
    · rw [if_neg h2]
      exact Or.inr (List.getLast?_concat _)

/-- The trimmed sentence before wrapping (Ruby's final `trimmed`). -/
def trimmedText (maxT : Nat) (cs : List Char) : List Char :=
  finalizeDot (scanChars (scanText maxT cs))

theorem sanitizeLines_eq (raw : List Char) (maxT maxL width : Nat) :
    sanitizeLines raw maxT maxL width =
      (wrapLines (trimmedText maxT (preprocessText raw)) width).take maxL := rfl

theorem trimmedText_no_sp_punct {b : Char} (maxT : Nat) (cs : List Char)
    (hb : b = commaCh ∨ b = dotCh) :
    hasPair spCh b (trimmedText maxT cs) = false := by
  obtain ⟨⟨helems, hpairs, -, -⟩, -⟩ := scanText_inv maxT cs
  exact finalizeDot_no_sp_punct (flatten_no_sp_punct helems hpairs hb)

theorem trimmedText_comma_follow {z : Char} (maxT : Nat) (cs : List Char)
    (h : hasPair commaCh z (trimmedText maxT cs) = true) :
    z = spCh ∨ z = commaCh ∨ z = dotCh := by
  obtain ⟨⟨helems, hpairs, -, -⟩, -⟩ := scanText_inv maxT cs
  exact finalizeDot_comma_follow
    (fun y hy => flatten_punct_follow helems hpairs (Or.inl rfl) hy) h

theorem trimmedText_chars (maxT : Nat) (cs : List Char) :
    ∀ c ∈ trimmedText maxT cs, scanCharOK c = true := by
  obtain ⟨⟨helems, -, -, -⟩, -⟩ := scanText_inv maxT cs
  intro c hc
  rcases mem_finalizeDot hc with h1 | h2
  · exact flatten_chars helems c h1
  · rw [h2]; decide

theorem trimmedText_ends (maxT : Nat) (cs : List Char) :
    trimmedText maxT cs = [] ∨ (trimmedText maxT cs).getLast? = some dotCh :=
  finalizeDot_ends _

theorem trimmedText_head_letter (maxT : Nat) (cs : List Char)
    (hne : trimmedText maxT cs ≠ []) :
    ∃ c rest, trimmedText maxT cs = c :: rest ∧ isLetter c = true := by
  obtain ⟨⟨helems, hpairs, hhead, hlast⟩, -⟩ := scanText_inv maxT cs
  match ho : (scanText maxT cs).outRev with
  | [] =>
    exfalso
    apply hne
    unfold trimmedText scanChars
    rw [ho]
    rfl
  | e :: t =>
    obtain ⟨c, cs2, hfl, hl⟩ := flatten_head_letter (ho ▸ helems) (ho ▸ hlast)
      (List.cons_ne_nil e t)
    have hsc : scanChars (scanText maxT cs) = ((e :: t) : List (List Char)).reverse.flatten := by
      unfold scanChars
      rw [ho]
    have hhd : (finalizeDot (scanChars (scanText maxT cs))).head? = some c := by
      apply finalizeDot_head _ hl
      apply stripList_head _ (isLetter_not_space hl)
      rw [hsc, hfl]
      rfl
    match hft : trimmedText maxT cs with
    | [] => exact absurd hft hne
    | x :: r =>
      unfold trimmedText at hft
      rw [hft, List.head?_cons, Option.some.injEq] at hhd
      exact ⟨x, r, hft ▸ rfl, hhd ▸ hl⟩

/-! ### Facts about `splitWs` (Ruby `text.split(/\s+/)`) -/

theorem hasPair_tail {a b c : Char} {l : List Char}
    (h : hasPair a b (c :: l) = false) : hasPair a b l = false := by
  match l with
  | [] => rfl
  | d :: rest =>
    rw [hasPair_cons_cons, Bool.or_eq_false_iff] at h
    exact h.2

theorem splitWsF_step (fuel : Nat) (c : Char) (rest : List Char) :
    splitWsF (fuel + 1) (c :: rest) =
      if isSpaceCh c = true then splitWsF fuel rest
      else (c :: rest.takeWhile (fun d => !isSpaceCh d)) ::
        splitWsF fuel (rest.dropWhile (fun d => !isSpaceCh d)) := rfl

theorem splitWsF_words {fuel : Nat} {cs : List Char} :
    ∀ w ∈ splitWsF fuel cs, w ≠ [] ∧ ∀ c ∈ w, isSpaceCh c = false ∧ c ∈ cs := by
  induction fuel generalizing cs with
  | zero => intro w hw; exact absurd hw (List.not_mem_nil w)
  | succ fuel ih =>
    match cs with
    | [] => intro w hw; exact absurd hw (List.not_mem_nil w)
    | c :: rest =>
      intro w hw
      by_cases hsp : isSpaceCh c = true
      · rw [splitWsF_step, if_pos hsp] at hw
        obtain ⟨h1, h2⟩ := ih w hw
        exact ⟨h1, fun x hx => ⟨(h2 x hx).1, List.mem_cons_of_mem c (h2 x hx).2⟩⟩
      · rw [splitWsF_step, if_neg hsp] at hw
        rcases List.mem_cons.mp hw with h1 | h2
        · subst h1
          refine ⟨List.cons_ne_nil _ _, ?_⟩
          intro x hx
          rcases List.mem_cons.mp hx with h3 | h4
          · subst h3
            exact ⟨Bool.eq_false_iff.mpr hsp, List.mem_cons_self x rest⟩
          · have hx_rest : x ∈ rest := (List.takeWhile_sublist _).mem h4
            refine ⟨?_, List.mem_cons_of_mem c hx_rest⟩
            have := List.mem_takeWhile_imp h4
            rw [Bool.not_eq_true'] at this
            exact this
        · obtain ⟨h3, h4⟩ := ih w h2
          refine ⟨h3, fun x hx => ⟨(h4 x hx).1, ?_⟩⟩
          exact List.mem_cons_of_mem c ((List.dropWhile_sublist _).mem (h4 x hx).2)

/-- If no space directly precedes `p` in `cs`, the only whitespace in `cs` is
the plain space, and `cs` does not start with `p`, then no word of
`splitWs cs` starts with `p` (`p` a comma or full stop). -/
theorem splitWsF_no_start {p : Char} {fuel : Nat} {cs : List Char}
    (hp : p = commaCh ∨ p = dotCh)
    (hchar : ∀ c ∈ cs, isSpaceCh c = true → c = spCh)
    (hpair : hasPair spCh p cs = false)
    (hhd : cs.head? ≠ some p) :
    ∀ w ∈ splitWsF fuel cs, w.head? ≠ some p := by
  induction fuel generalizing cs with
  | zero => intro w hw; exact absurd hw (List.not_mem_nil w)
  | succ fuel ih =>
    cases cs with
    | nil => intro w hw; exact absurd hw (List.not_mem_nil w)
    | cons c rest =>
      intro w hw
      by_cases hsp : isSpaceCh c = true
      · rw [splitWsF_step, if_pos hsp] at hw
        have hcsp : c = spCh := hchar c (List.mem_cons_self c rest) hsp
        refine ih ?_ (hasPair_tail hpair) ?_ w hw
        · exact fun x hx hs => hchar x (List.mem_cons_of_mem c hx) hs
        · match rest with
          | [] => intro hcon; exact Option.noConfusion hcon
          | d :: r2 =>
            rw [List.head?_cons]
            intro hcon
            rw [Option.some.injEq] at hcon
            subst hcon
            rw [hcsp, hasPair_cons_cons, Bool.or_eq_false_iff, Bool.and_eq_false_iff] at hpair
            rcases hpair.1 with h1 | h1
            · exact absurd rfl (decide_eq_false_iff_not.mp h1)
            · exact absurd rfl (decide_eq_false_iff_not.mp h1)
      · rw [splitWsF_step, if_neg hsp] at hw
        rcases List.mem_cons.mp hw with h1 | h2
        · subst h1
          rw [List.head?_cons]
          intro hcon
          rw [Option.some.injEq] at hcon
          exact hhd (by rw [List.head?_cons, hcon])
        · refine ih ?_ ?_ ?_ w h2
          · exact fun x hx hs =>
              hchar x (List.mem_cons_of_mem c ((List.dropWhile_sublist _).mem hx)) hs
          · have h3 : hasPair spCh p rest = false := hasPair_tail hpair
            have : rest = rest.takeWhile (fun d => !isSpaceCh d) ++
                rest.dropWhile (fun d => !isSpaceCh d) :=
              (List.takeWhile_append_dropWhile _ _).symm
            rw [this] at h3
            exact hasPair_of_suffix h3
          · match hdw : rest.dropWhile (fun d => !isSpaceCh d) with
            | [] => intro hcon; exact Option.noConfusion hcon
            | d :: r2 =>
              rw [List.head?_cons]
              intro hcon
              rw [Option.some.injEq] at hcon
              subst hcon
              have hws : isSpaceCh d = true := by
                have := List.head?_dropWhile_not (fun d => !isSpaceCh d) rest
                rw [hdw] at this
                simp only [List.head?_cons] at this
                rw [Bool.not_eq_false'] at this
                exact this
              have hd_mem : d ∈ c :: rest := List.mem_cons_of_mem c ((List.dropWhile_sublist _).mem
                (hdw ▸ List.mem_cons_self d r2))
              have : d = spCh := hchar d hd_mem hws
              rcases hp with h | h <;> rw [h] at this <;> exact absurd this (by decide)

/-- If `cs` ends with a non-whitespace character `x`, the last word of
`splitWs cs` ends with `x`. -/
theorem splitWsF_last {fuel : Nat} {cs : List Char} {x : Char}
    (hf : cs.length ≤ fuel) (hlast : cs.getLast? = some x)
    (hx : isSpaceCh x = false) :
    ∃ w, (splitWsF fuel cs).getLast? = some w ∧ w.getLast? = some x := by
  induction fuel generalizing cs with
  | zero =>
    exfalso
    have : cs = [] := List.length_eq_zero.mp (Nat.le_zero.mp hf)
    rw [this] at hlast
    exact Option.noConfusion hlast
  | succ fuel ih =>
    cases cs with
    | nil => exact absurd hlast (by rw [List.getLast?_nil]; exact Option.noConfusion)
    | cons c rest =>
      by_cases hsp : isSpaceCh c = true
      · rw [splitWsF_step, if_pos hsp]
        match rest with
        | [] =>
          exfalso
          rw [List.getLast?_singleton, Option.some.injEq] at hlast
          rw [← hlast] at hx
          rw [hsp] at hx
          exact Bool.noConfusion hx
        | d :: r2 =>
          refine ih ?_ ?_
          · have : (c :: d :: r2).length = (d :: r2).length + 1 := rfl
            omega
          · rw [← List.getLast?_cons_cons]
            exact hlast
      · rw [splitWsF_step, if_neg hsp]
        have hsplit : (c :: rest : List Char) =
            (c :: rest.takeWhile (fun d => !isSpaceCh d)) ++
              rest.dropWhile (fun d => !isSpaceCh d) := by
          rw [List.cons_append, List.takeWhile_append_dropWhile]
        match hdw : rest.dropWhile (fun d => !isSpaceCh d) with
        | [] =>
          have hw1 : (c :: rest : List Char) = c :: rest.takeWhile (fun d => !isSpaceCh d) := by
            conv_lhs => rw [hsplit]
            rw [hdw, List.append_nil]
          refine ⟨c :: rest.takeWhile (fun d => !isSpaceCh d), ?_, ?_⟩
          · have hnil : splitWsF fuel ([] : List Char) = [] := by
              match fuel with
              | 0 => rfl
              | _ + 1 => rfl
            rw [hnil, List.getLast?_singleton]
          · rw [← hw1]
            exact hlast
        | d :: r2 =>
          have hlen : (d :: r2).length ≤ fuel := by
            have h1 : (rest.dropWhile (fun d => !isSpaceCh d)).length ≤ rest.length :=
              (List.dropWhile_sublist _).length_le
            rw [hdw] at h1
            have h2 : (c :: rest).length = rest.length + 1 := rfl
            omega
          have hlast2 : (d :: r2).getLast? = some x := by
            rw [hsplit, hdw, List.getLast?_append] at hlast
            match hg : (d :: r2).getLast? with
            | some y =>
              rw [hg] at hlast
              simp only [Option.or_some, Option.some.injEq] at hlast
              rw [hlast]
            | none =>
              exact absurd (List.getLast?_eq_none_iff.mp hg) (List.cons_ne_nil d r2)
          obtain ⟨w, hw1, hw2⟩ := @ih (d :: r2) hlen hlast2
          refine ⟨w, ?_, hw2⟩
          match hsw : splitWsF fuel (d :: r2) with
          | [] =>
            rw [hsw] at hw1
            exact absurd hw1 (by rw [List.getLast?_nil]; exact Option.noConfusion)
          | v :: vs =>
            rw [hsw] at hw1
            rw [← hw1]
            exact (List.getLast?_cons_cons ..)

/-! ### Facts about the greedy wrap -/

theorem wrapLoop_nil (cols : Nat) (lines : List (List Char)) (current : List Char) :
    wrapLoop cols [] lines current =
      if current.isEmpty then lines else lines ++ [current] := rfl

theorem wrapLoop_step (cols : Nat) (w : List Char) (ws lines : List (List Char))
    (current : List Char) :
    wrapLoop cols (w :: ws) lines current =
      if cols < w.length then
        wrapLoop cols ws ((if current.isEmpty then lines else lines ++ [current]) ++ [w]) []
      else if current.isEmpty then wrapLoop cols ws lines w
      else if current.length + 1 + w.length ≤ cols then
        wrapLoop cols ws lines (current ++ spCh :: w)
      else wrapLoop cols ws (lines ++ [current]) w := rfl

theorem wrapLoop_nil_empty (cols : Nat) (lines : List (List Char)) :
    wrapLoop cols [] lines [] = lines := rfl

theorem wrapLoop_nil_ne (cols : Nat) (lines : List (List Char)) {current : List Char}
    (h : current ≠ []) :
    wrapLoop cols [] lines current = lines ++ [current] := by
  rw [wrapLoop_nil, if_neg]
  rw [List.isEmpty_eq_false.mpr h]
  exact Bool.noConfusion

theorem getLast?_append_right {x y : List Char} {t : Char} (h : y.getLast? = some t) :
    (x ++ y).getLast? = some t := by
  rw [List.getLast?_append, h]
  rfl

theorem getLast?_cons_of_ne {c : Char} {l : List Char} (h : l ≠ []) :
    (c :: l).getLast? = l.getLast? := by
  match l with
  | a :: t => exact List.getLast?_cons_cons

/-- Generic preservation: any property of words that is stable under joining
with a single space holds for every produced line. -/
theorem wrapLoop_pres (cols : Nat) (P : List Char → Prop)
    (hjoin : ∀ x w, P x → P w → x ≠ [] → P (x ++ spCh :: w)) :
    ∀ ws lines current,
      (∀ w ∈ ws, P w) → (∀ l ∈ lines, P l) → (current = [] ∨ P current) →
      ∀ l ∈ wrapLoop cols ws lines current, P l := by
  intro ws
  induction ws with
  | nil =>
    intro lines current hws hlines hcur l hl
    rw [wrapLoop_nil] at hl
    by_cases hc : current.isEmpty = true
    · rw [if_pos hc] at hl
      exact hlines l hl
    · rw [if_neg hc] at hl
      rcases List.mem_append.mp hl with h1 | h2
      · exact hlines l h1
      · rw [List.mem_singleton] at h2
        subst h2
        rcases hcur with h3 | h3
        · exact absurd (by rw [h3]; rfl) hc
        · exact h3
  | cons w ws ih =>
    intro lines current hws hlines hcur l hl
    have hPw : P w := hws w (List.mem_cons_self w ws)
    have hws' : ∀ v ∈ ws, P v := fun v hv => hws v (List.mem_cons_of_mem w hv)
    rw [wrapLoop_step] at hl
    by_cases h1 : cols < w.length
    · rw [if_pos h1] at hl
      refine ih _ [] hws' ?_ (Or.inl rfl) l hl
      intro x hx
      rcases List.mem_append.mp hx with h2 | h3
      · by_cases hc : current.isEmpty = true
        · rw [if_pos hc] at h2
          exact hlines x h2
        · rw [if_neg hc] at h2
          rcases List.mem_append.mp h2 with h4 | h5
          · exact hlines x h4
          · rw [List.mem_singleton] at h5
            subst h5
            rcases hcur with h6 | h6
            · exact absurd (by rw [h6]; rfl) hc
            · exact h6
      · rw [List.mem_singleton] at h3
        subst h3
        exact hPw
    · rw [if_neg h1] at hl
      by_cases h2 : current.isEmpty = true
      · rw [if_pos h2] at hl
        exact ih _ w hws' hlines (Or.inr hPw) l hl
      · rw [if_neg h2] at hl
        have hcurP : P current := by
          rcases hcur with h3 | h3
          · exact absurd (by rw [h3]; rfl) h2
          · exact h3
        have hcur_ne : current ≠ [] := by
          intro h3
          exact absurd (by rw [h3]; rfl) h2
        by_cases h3 : current.length + 1 + w.length ≤ cols
        · rw [if_pos h3] at hl
          exact ih _ _ hws' hlines (Or.inr (hjoin current w hcurP hPw hcur_ne)) l hl
        · rw [if_neg h3] at hl
          refine ih _ w hws' ?_ (Or.inr hPw) l hl
          intro x hx
          rcases List.mem_append.mp hx with h4 | h5
          · exact hlines x h4
          · rw [List.mem_singleton] at h5
            subst h5
            exact hcurP

/-- Every produced line is at most `cols` long, except a line made of a
single word (a line containing no space character). -/
theorem wrapLoop_len (cols : Nat) :
    ∀ ws lines current,
      (∀ w ∈ ws, spCh ∉ w) →
      (∀ l ∈ lines, l.length ≤ cols ∨ spCh ∉ l) →
      (current = [] ∨ current.length ≤ cols) →
      ∀ l ∈ wrapLoop cols ws lines current, l.length ≤ cols ∨ spCh ∉ l := by
  intro ws
  induction ws with
  | nil =>
    intro lines current hws hlines hcur l hl
    rw [wrapLoop_nil] at hl
    by_cases hc : current.isEmpty = true
    · rw [if_pos hc] at hl
      exact hlines l hl
    · rw [if_neg hc] at hl
      rcases List.mem_append.mp hl with h1 | h2
      · exact hlines l h1
      · rw [List.mem_singleton] at h2
        subst h2
        rcases hcur with h3 | h3
        · exact absurd (by rw [h3]; rfl) hc
        · exact Or.inl h3
  | cons w ws ih =>
    intro lines current hws hlines hcur l hl
    have hw_nsp : spCh ∉ w := hws w (List.mem_cons_self w ws)
    have hws' : ∀ v ∈ ws, spCh ∉ v := fun v hv => hws v (List.mem_cons_of_mem w hv)
    rw [wrapLoop_step] at hl
    by_cases h1 : cols < w.length
    · rw [if_pos h1] at hl
      refine ih _ [] hws' ?_ (Or.inl rfl) l hl
      intro x hx
      rcases List.mem_append.mp hx with h2 | h3
      · by_cases hc : current.isEmpty = true
        · rw [if_pos hc] at h2
          exact hlines x h2
        · rw [if_neg hc] at h2
          rcases List.mem_append.mp h2 with h4 | h5
          · exact hlines x h4
          · rw [List.mem_singleton] at h5
            subst h5
            rcases hcur with h6 | h6
            · exact absurd (by rw [h6]; rfl) hc
            · exact Or.inl h6
      · rw [List.mem_singleton] at h3
        subst h3
        exact Or.inr hw_nsp
    · rw [if_neg h1] at hl
      rw [Nat.not_lt] at h1
      by_cases h2 : current.isEmpty = true
      · rw [if_pos h2] at hl
        exact ih _ w hws' hlines (Or.inr h1) l hl
      · rw [if_neg h2] at hl
        have hcur_le : current.length ≤ cols := by
          rcases hcur with h3 | h3
          · exact absurd (by rw [h3]; rfl) h2
          · exact h3
        by_cases h3 : current.length + 1 + w.length ≤ cols
        · rw [if_pos h3] at hl
          refine ih _ _ hws' hlines (Or.inr ?_) l hl
          rw [List.length_append, List.length_cons]
          omega
        · rw [if_neg h3] at hl
          refine ih _ w hws' ?_ (Or.inr h1) l hl
          intro x hx
          rcases List.mem_append.mp hx with h4 | h5
          · exact hlines x h4
          · rw [List.mem_singleton] at h5
            subst h5
            exact Or.inl hcur_le

/-- When the word list is nonempty, the last produced line ends with the last
character of the last word. -/
theorem wrapLoop_last (cols : Nat) :
    ∀ ws lines current wlast x,
      (∀ w ∈ ws, w ≠ []) →
      ws.getLast? = some wlast → wlast.getLast? = some x →
      ∃ l, (wrapLoop cols ws lines current).getLast? = some l ∧ l.getLast? = some x := by
  intro ws
  induction ws with
  | nil =>
    intro lines current wlast x hne hlast hx
    exact absurd hlast (by rw [List.getLast?_nil]; exact Option.noConfusion)
  | cons w ws ih =>
    intro lines current wlast x hne hlast hx
    match ws, hlast with
    | [], hlast =>
      rw [List.getLast?_singleton, Option.some.injEq] at hlast
      subst hlast
      have hw_ne : w ≠ [] := hne w (List.mem_cons_self w [])
      rw [wrapLoop_step]
      by_cases h1 : cols < w.length
      · rw [if_pos h1, wrapLoop_nil_empty]
        exact ⟨w, List.getLast?_concat _, hx⟩
      · rw [if_neg h1]
        by_cases h2 : current.isEmpty = true
        · rw [if_pos h2, wrapLoop_nil_ne cols lines hw_ne]
          exact ⟨w, List.getLast?_concat _, hx⟩
        · rw [if_neg h2]
          by_cases h3 : current.length + 1 + w.length ≤ cols
          · rw [if_pos h3, wrapLoop_nil_ne cols lines (by
              intro hcon
              exact List.cons_ne_nil spCh w (List.append_eq_nil.mp hcon).2)]
            refine ⟨current ++ spCh :: w, List.getLast?_concat _, ?_⟩
            rw [getLast?_append_right (y := spCh :: w) (by rw [getLast?_cons_of_ne hw_ne]; exact hx)]
          · rw [if_neg h3, wrapLoop_nil_ne cols (lines ++ [current]) hw_ne]
            exact ⟨w, List.getLast?_concat _, hx⟩
    | v :: ws', hlast =>
      rw [List.getLast?_cons_cons] at hlast
      have hne' : ∀ u ∈ v :: ws', u ≠ [] := fun u hu => hne u (List.mem_cons_of_mem w hu)
      rw [wrapLoop_step]
      by_cases h1 : cols < w.length
      · rw [if_pos h1]
        exact ih _ _ wlast x hne' hlast hx
      · rw [if_neg h1]
        by_cases h2 : current.isEmpty = true
        · rw [if_pos h2]
          exact ih _ _ wlast x hne' hlast hx
        · rw [if_neg h2]
          by_cases h3 : current.length + 1 + w.length ≤ cols
          · rw [if_pos h3]
            exact ih _ _ wlast x hne' hlast hx
          · rw [if_neg h3]
            exact ih _ _ wlast x hne' hlast hx

/-! ### Facts about joining lines -/

theorem hasPair_cons_false {a b c : Char} {l : List Char}
    (hl : hasPair a b l = false) (hb : ¬(c = a ∧ l.head? = some b)) :
    hasPair a b (c :: l) = false := by
  have : (c :: l : List Char) = [c] ++ l := rfl
  rw [this]
  refine hasPair_append_false (hasPair_single a b c) hl ?_
  rintro ⟨h1, h2⟩
  rw [List.getLast?_singleton, Option.some.injEq] at h1
  exact hb ⟨h1, h2⟩

theorem joinWith_nil (sep : Char) : joinWith sep [] = [] := rfl

theorem joinWith_single (sep : Char) (l : List Char) : joinWith sep [l] = l := rfl

theorem joinWith_cons₂ (sep : Char) (l l2 : List Char) (ls : List (List Char)) :
    joinWith sep (l :: l2 :: ls) = l ++ sep :: joinWith sep (l2 :: ls) := rfl

theorem joinWith_head {sep c : Char} {l : List Char} {rest : List (List Char)}
    (h : l.head? = some c) :
    (joinWith sep (l :: rest)).head? = some c := by
  match rest with
  | [] => rw [joinWith_single]; exact h
  | l2 :: ls =>
    rw [joinWith_cons₂, List.head?_append, h]
    rfl

theorem joinWith_getLast {sep : Char} :
    ∀ ls (llast : List Char) (x : Char), (∀ l ∈ ls, l ≠ []) →
      ls.getLast? = some llast → llast.getLast? = some x →
      (joinWith sep ls).getLast? = some x := by
  intro ls
  induction ls with
  | nil =>
    intro llast x hne hlast hx
    exact absurd hlast (by rw [List.getLast?_nil]; exact Option.noConfusion)
  | cons l rest ih =>
    intro llast x hne hlast hx
    match rest, hlast with
    | [], hlast =>
      rw [List.getLast?_singleton, Option.some.injEq] at hlast
      subst hlast
      rw [joinWith_single]
      exact hx
    | l2 :: ls2, hlast =>
      rw [List.getLast?_cons_cons] at hlast
      rw [joinWith_cons₂]
      have hrec := ih llast x (fun u hu => hne u (List.mem_cons_of_mem l hu)) hlast hx
      refine getLast?_append_right ?_
      rw [getLast?_cons_of_ne, hrec]
      intro hcon
      have hl2 : l2 ≠ [] := hne l2 (List.mem_cons_of_mem l (List.mem_cons_self l2 ls2))
      have := @joinWith_head sep (l2.head (by exact hl2)) l2 ls2
        (List.head?_eq_head hl2)
      rw [hcon] at this
      exact Option.noConfusion this

theorem joinWith_mem {sep c : Char} :
    ∀ {ls}, c ∈ joinWith sep ls → (∃ l ∈ ls, c ∈ l) ∨ c = sep := by
  intro ls
  induction ls with
  | nil => intro h; exact absurd h (List.not_mem_nil c)
  | cons l rest ih =>
    intro h
    match rest with
    | [] =>
      rw [joinWith_single] at h
      exact Or.inl ⟨l, List.mem_cons_self l [], h⟩
    | l2 :: ls2 =>
      rw [joinWith_cons₂] at h
      rcases List.mem_append.mp h with h1 | h2
      · exact Or.inl ⟨l, List.mem_cons_self l _, h1⟩
      · rcases List.mem_cons.mp h2 with h3 | h4
        · exact Or.inr h3
        · rcases ih h4 with ⟨u, hu, hcu⟩ | h5
          · exact Or.inl ⟨u, List.mem_cons_of_mem l hu, hcu⟩
          · exact Or.inr h5

/-- Joining lines with a separator creates no new `(a, b)` pair provided `b`
is not the separator and no line starts with `b`. -/
theorem joinWith_pairfree {a b sep : Char} (hbsep : b ≠ sep) :
    ∀ ls, (∀ l ∈ ls, l ≠ []) → (∀ l ∈ ls, hasPair a b l = false) →
      (∀ l ∈ ls, l.head? ≠ some b) →
      hasPair a b (joinWith sep ls) = false := by
  intro ls
  induction ls with
  | nil => intro _ _ _; rfl
  | cons l rest ih =>
    intro hne hpf hhd
    match rest with
    | [] =>
      rw [joinWith_single]
      exact hpf l (List.mem_cons_self l [])
    | l2 :: ls2 =>
      rw [joinWith_cons₂]
      refine hasPair_append_false (hpf l (List.mem_cons_self l _)) ?_ ?_
      · refine hasPair_cons_false ?_ ?_
        · exact ih (fun u hu => hne u (List.mem_cons_of_mem l hu))
            (fun u hu => hpf u (List.mem_cons_of_mem l hu))
            (fun u hu => hhd u (List.mem_cons_of_mem l hu))
        · rintro ⟨-, h2⟩
          have hl2 : l2 ≠ [] := hne l2 (List.mem_cons_of_mem l (List.mem_cons_self l2 ls2))
          have := @joinWith_head sep (l2.head hl2) l2 ls2 (List.head?_eq_head hl2)
          rw [h2, Option.some.injEq] at this
          exact hhd l2 (List.mem_cons_of_mem l (List.mem_cons_self l2 ls2))
            (by rw [List.head?_eq_head hl2, this])
      · rintro ⟨-, h2⟩
        rw [List.head?_cons, Option.some.injEq] at h2
        exact hbsep h2.symm

/-! ### Token budget: only token matches consume it -/

def tokenCountF : Nat → List Char → Nat
  | 0, _ => 0
  | _ + 1, [] => 0
  | fuel + 1, c :: rest =>
    match tokenMatch (c :: rest) with
    | some (_, r2) => tokenCountF fuel r2 + 1
    | none => tokenCountF fuel rest

def tokenCount (cs : List Char) : Nat := tokenCountF cs.length cs

theorem tokenCountF_step (fuel : Nat) (c : Char) (rest : List Char) :
    tokenCountF (fuel + 1) (c :: rest) =
      match tokenMatch (c :: rest) with
      | some (_, r2) => tokenCountF fuel r2 + 1
      | none => tokenCountF fuel rest := rfl

/-- The number of copied tokens is the total token count capped at
`max_tokens`; spaces and punctuation never change the counter. -/
theorem scanLoopF_wc (maxT : Nat) :
    ∀ fuel cs acc, acc.wc ≤ maxT →
      (scanLoopF maxT fuel cs acc).wc = min maxT (acc.wc + tokenCountF fuel cs) := by
  intro fuel
  induction fuel with
  | zero =>
    intro cs acc hle
    show acc.wc = min maxT (acc.wc + 0)
    omega
  | succ fuel ih =>
    intro cs acc hle
    match cs with
    | [] =>
      show acc.wc = min maxT (acc.wc + 0)
      omega
    | c :: rest =>
      rcases htm : tokenMatch (c :: rest) with _ | ⟨tok, r2⟩
      · have htc : tokenCountF (fuel + 1) (c :: rest) = tokenCountF fuel rest := by
          rw [tokenCountF_step, htm]
        rw [htc]
        by_cases hsp : isSpaceCh c = true
        · by_cases hcond : (!acc.outRev.isEmpty && !acc.lws) = true
          · have hstep : scanLoopF maxT (fuel + 1) (c :: rest) acc =
                scanLoopF maxT fuel rest ⟨[spCh] :: acc.outRev, acc.wc, true⟩ := by
              simp [scanLoopF, htm, hsp, hcond]
            rw [hstep]
            exact ih rest ⟨[spCh] :: acc.outRev, acc.wc, true⟩ hle
          · have hstep : scanLoopF maxT (fuel + 1) (c :: rest) acc =
                scanLoopF maxT fuel rest acc := by
              simp [scanLoopF, htm, hsp, hcond]
            rw [hstep]
            exact ih rest acc hle
        · rw [Bool.not_eq_true] at hsp
          by_cases hpc : (c = commaCh || c = dotCh) = true
          · by_cases hemp : acc.outRev.isEmpty = true
            · have hstep : scanLoopF maxT (fuel + 1) (c :: rest) acc =
                  scanLoopF maxT fuel rest acc := by
                simp [scanLoopF, htm, hsp, hpc, hemp]
              rw [hstep]
              exact ih rest acc hle
            · have hstep : scanLoopF maxT (fuel + 1) (c :: rest) acc =
                  scanLoopF maxT fuel rest
                    ⟨[spCh] :: [c] :: popSp acc.outRev, acc.wc, true⟩ := by
                simp [scanLoopF, htm, hsp, hpc, hemp]
              rw [hstep]
              exact ih rest ⟨[spCh] :: [c] :: popSp acc.outRev, acc.wc, true⟩ hle
          · have hstep : scanLoopF maxT (fuel + 1) (c :: rest) acc =
                scanLoopF maxT fuel rest acc := by
              simp [scanLoopF, htm, hsp, hpc]
            rw [hstep]
            exact ih rest acc hle
      · have htc : tokenCountF (fuel + 1) (c :: rest) = tokenCountF fuel r2 + 1 := by
          rw [tokenCountF_step, htm]
        rw [htc]
        by_cases hwc : maxT ≤ acc.wc
        · have hstep : scanLoopF maxT (fuel + 1) (c :: rest) acc = acc := by
            simp [scanLoopF, htm, hwc]
          rw [hstep]
          omega
        · have hstep : scanLoopF maxT (fuel + 1) (c :: rest) acc =
              scanLoopF maxT fuel r2
                ⟨tok :: (if needSep acc.outRev then [spCh] :: acc.outRev else acc.outRev),
                  acc.wc + 1, false⟩ := by
            simp [scanLoopF, htm, hwc]
          rw [hstep]
          have := ih r2
            ⟨tok :: (if needSep acc.outRev then [spCh] :: acc.outRev else acc.outRev),
              acc.wc + 1, false⟩ (by show acc.wc + 1 ≤ maxT; omega)
          rw [this]
          show min maxT (acc.wc + 1 + tokenCountF fuel r2) =
            min maxT (acc.wc + (tokenCountF fuel r2 + 1))
          omega

theorem scanText_wc (maxT : Nat) (cs : List Char) :
    (scanText maxT cs).wc = min maxT (tokenCount cs) := by
  show (scanLoopF maxT cs.length cs ⟨[], 0, false⟩).wc = min maxT (tokenCountF cs.length cs)
  rw [scanLoopF_wc maxT cs.length cs ⟨[], 0, false⟩ (Nat.zero_le maxT)]
  show min maxT (0 + tokenCountF cs.length cs) = _
  omega

/-! ### Input without letters produces nothing -/

theorem scanLoopF_no_letters (maxT : Nat) :
    ∀ fuel cs acc, (∀ c ∈ cs, isLetter c = false) → acc.outRev = [] →
      (scanLoopF maxT fuel cs acc).outRev = [] := by
  intro fuel
  induction fuel with
  | zero => intro cs acc _ h; exact h
  | succ fuel ih =>
    intro cs acc hnl hout
    match cs with
    | [] => exact hout
    | c :: rest =>
      have hnl_rest : ∀ x ∈ rest, isLetter x = false :=
        fun x hx => hnl x (List.mem_cons_of_mem c hx)
      have htm : tokenMatch (c :: rest) = none :=
        tokenMatch_none_of_not_letter (hnl c (List.mem_cons_self c rest))
      have hemp : acc.outRev.isEmpty = true := by
        rw [hout]; rfl
      by_cases hsp : isSpaceCh c = true
      · have hcond : (!acc.outRev.isEmpty && !acc.lws) = false := by
          rw [hemp]; rfl
        have hstep : scanLoopF maxT (fuel + 1) (c :: rest) acc =
            scanLoopF maxT fuel rest acc := by
          simp [scanLoopF, htm, hsp, hcond]
        rw [hstep]
        exact ih rest acc hnl_rest hout
      · rw [Bool.not_eq_true] at hsp
        by_cases hpc : (c = commaCh || c = dotCh) = true
        · have hstep : scanLoopF maxT (fuel + 1) (c :: rest) acc =
              scanLoopF maxT fuel rest acc := by
            simp [scanLoopF, htm, hsp, hpc, hemp]
          rw [hstep]
          exact ih rest acc hnl_rest hout
        · have hstep : scanLoopF maxT (fuel + 1) (c :: rest) acc =
              scanLoopF maxT fuel rest acc := by
            simp [scanLoopF, htm, hsp, hpc]
          rw [hstep]
          exact ih rest acc hnl_rest hout

/-! ### Preprocessing lemmas -/

theorem mem_splitNlF : ∀ (fuel : Nat) (cs l : List Char), l ∈ splitNlF fuel cs →
    ∀ c ∈ l, c ∈ cs := by
  intro fuel
  induction fuel with
  | zero =>
    intro cs l hl c hc
    rw [show splitNlF 0 cs = [cs] from rfl, List.mem_singleton] at hl
    subst hl
    exact hc
  | succ fuel ih =>
    intro cs l hl c hc
    have hstep : splitNlF (fuel + 1) cs =
        match cs.dropWhile (fun c => !(c = nlCh)) with
        | [] => [cs.takeWhile (fun c => !(c = nlCh))]
        | _ :: rest2 => cs.takeWhile (fun c => !(c = nlCh)) :: splitNlF fuel rest2 := rfl
    rw [hstep] at hl
    match hdw : cs.dropWhile (fun c => !(c = nlCh)) with
    | [] =>
      rw [hdw, List.mem_singleton] at hl
      subst hl
      exact (List.takeWhile_sublist _).mem hc
    | x :: rest2 =>
      rw [hdw] at hl
      rcases List.mem_cons.mp hl with h1 | h2
      · subst h1
        exact (List.takeWhile_sublist _).mem hc
      · have hcrest : c ∈ rest2 := ih rest2 l h2 c hc
        have : c ∈ cs.dropWhile (fun c => !(c = nlCh)) := by
          rw [hdw]
          exact List.mem_cons_of_mem x hcrest
        exact (List.dropWhile_sublist _).mem this

theorem mem_splitNl {cs l : List Char} (hl : l ∈ splitNl cs) : ∀ c ∈ l, c ∈ cs :=
  mem_splitNlF cs.length cs l hl

theorem mem_dropTrailingBlank {ls : List (List Char)} {l : List Char}
    (h : l ∈ dropTrailingBlank ls) : l ∈ ls := by
  unfold dropTrailingBlank at h
  rw [List.mem_reverse] at h
  have := (List.dropWhile_sublist _).mem h
  rw [List.mem_reverse] at this
  exact this

theorem mem_dropEndMarker {ls : List (List Char)} {l : List Char}
    (h : l ∈ dropEndMarker ls) : l ∈ ls := by
  unfold dropEndMarker at h
  match hg : ls.getLast? with
  | some u =>
    rw [hg] at h
    have h' : l ∈ (if stripList u = ['E', 'N', 'D'] then ls.dropLast else ls) := h
    by_cases he : stripList u = ['E', 'N', 'D']
    · rw [if_pos he] at h'
      exact (List.dropLast_sublist ls).mem h'
    · rw [if_neg he] at h'
      exact h'
  | none =>
    rw [hg] at h
    exact h

theorem mem_truncAtDot {cs : List Char} {c : Char} (h : c ∈ truncAtDot cs) : c ∈ cs := by
  induction cs with
  | nil => exact absurd h (List.not_mem_nil c)
  | cons d rest ih =>
    unfold truncAtDot at h
    by_cases hd : d = dotCh
    · rw [if_pos hd] at h
      rw [List.mem_singleton] at h
      rw [h, ← hd]
      exact List.mem_cons_self d rest
    · rw [if_neg hd] at h
      rcases List.mem_cons.mp h with h1 | h2
      · rw [h1]; exact List.mem_cons_self d rest
      · exact List.mem_cons_of_mem d (ih h2)

/-- After truncating at the first full stop, no character follows any full
stop: the stop can only be the final character. -/
theorem truncAtDot_dot_final (cs : List Char) (z : Char) :
    hasPair dotCh z (truncAtDot cs) = false := by
  induction cs with
  | nil => rfl
  | cons d rest ih =>
    unfold truncAtDot
    by_cases hd : d = dotCh
    · rw [if_pos hd]
      exact hasPair_single dotCh z dotCh
    · rw [if_neg hd]
      refine hasPair_cons_false ih ?_
      rintro ⟨h1, -⟩
      exact hd h1

theorem normQuote_letter {c : Char} (h : isLetter (normQuote c) = true) :
    isLetter c = true := by
  unfold normQuote at h
  by_cases hq : (c = rsqCh || c = lsqCh) = true
  · rw [if_pos hq] at h
    exact absurd h (by decide)
  · rw [if_neg hq] at h
    exact h

theorem preprocess_no_letters {raw : List Char}
    (h : ∀ c ∈ raw, isLetter c = false) :
    ∀ c ∈ preprocessText raw, isLetter c = false := by
  intro c hc
  by_contra hl
  rw [Bool.not_eq_false] at hl
  unfold preprocessText at hc
  have hc2 := mem_truncAtDot hc
  rw [List.mem_map] at hc2
  obtain ⟨c', hc', heq⟩ := hc2
  have hl' : isLetter c' = true := normQuote_letter (heq ▸ hl)
  rcases joinWith_mem hc' with ⟨l, hlmem, hcl⟩ | hsp
  · rw [List.mem_filter] at hlmem
    obtain ⟨hlmem, -⟩ := hlmem
    rw [List.mem_map] at hlmem
    obtain ⟨l0, hl0, hleq⟩ := hlmem
    have : c' ∈ l0 := mem_stripList (hleq ▸ hcl)
    have : c' ∈ raw :=
      mem_splitNl (mem_dropTrailingBlank (mem_dropEndMarker hl0)) c' this
    rw [h c' this] at hl'
    exact Bool.noConfusion hl'
  · rw [hsp] at hl'
    exact absurd hl' (by decide)

theorem sanitizeLines_no_letters {raw : List Char} (maxT maxL width : Nat)
    (h : ∀ c ∈ raw, isLetter c = false) :
    sanitizeLines raw maxT maxL width = [] := by
  have h1 : (scanText maxT (preprocessText raw)).outRev = [] :=
    scanLoopF_no_letters maxT _ _ _ (preprocess_no_letters h) rfl
  have h2 : scanChars (scanText maxT (preprocessText raw)) = [] := by
    unfold scanChars
    rw [h1]
    rfl
  have h3 : trimmedText maxT (preprocessText raw) = [] := by
    unfold trimmedText
    rw [h2]
    rfl
  have h4 : wrapLines ([] : List Char) width = [] := rfl
  rw [sanitizeLines_eq, h3, h4, List.take_nil]

/-! ### Assembling the formatter facts -/

theorem head?_append_of_ne {x y : List Char} (h : x ≠ []) :
    (x ++ y).head? = x.head? := by
  match x with
  | c :: t => rfl

theorem scanCharOK_ws {c : Char} (h1 : scanCharOK c = true) (h2 : isSpaceCh c = true) :
    c = spCh := by
  unfold scanCharOK at h1
  rcases Bool.or_eq_true_iff.mp h1 with h3 | h4
  · rcases Bool.or_eq_true_iff.mp h3 with h5 | h6
    · rcases Bool.or_eq_true_iff.mp h5 with h7 | h8
      · rcases Bool.or_eq_true_iff.mp h7 with h9 | h10
        · rw [isLetter_not_space h9] at h2
          exact Bool.noConfusion h2
        · rw [decide_eq_true_eq.mp h10] at h2 ⊢
          rw [apos_not_space] at h2
          exact Bool.noConfusion h2
      · exact decide_eq_true_eq.mp h8
    · rw [decide_eq_true_eq.mp h6] at h2
      rw [comma_not_space] at h2
      exact Bool.noConfusion h2
  · rw [decide_eq_true_eq.mp h4] at h2
    rw [dot_not_space] at h2
    exact Bool.noConfusion h2

theorem scanCharOK_ne_nl {c : Char} (h : scanCharOK c = true) : c ≠ nlCh := by
  intro he
  rw [he] at h
  exact absurd h (by decide)

theorem words_of_trimmed (maxT : Nat) (text : List Char) :
    ∀ w ∈ splitWs (trimmedText maxT text),
      w ≠ [] ∧ spCh ∉ w ∧ nlCh ∉ w ∧
        w.head? ≠ some commaCh ∧ w.head? ≠ some dotCh := by
  intro w hw
  obtain ⟨hne, hchars⟩ := splitWsF_words w hw
  have hmem : ∀ c ∈ w, scanCharOK c = true :=
    fun c hc => trimmedText_chars maxT text c (hchars c hc).2
  have hchar_ws : ∀ c ∈ trimmedText maxT text, isSpaceCh c = true → c = spCh :=
    fun c hc hs => scanCharOK_ws (trimmedText_chars maxT text c hc) hs
  have hhd : ∀ {b : Char}, b = commaCh ∨ b = dotCh →
      (trimmedText maxT text).head? ≠ some b := by
    intro b hb hcon
    match ht : trimmedText maxT text with
    | [] => rw [ht] at hcon; exact Option.noConfusion hcon
    | c :: rest =>
      obtain ⟨c', rest', heq, hl⟩ := trimmedText_head_letter maxT text
        (by rw [ht]; exact List.cons_ne_nil c rest)
      rw [ht] at heq hcon
      rcases List.cons_eq_cons.mp heq with ⟨h1, -⟩
      rw [List.head?_cons, Option.some.injEq] at hcon
      subst h1
      rcases hb with h | h
      · exact isLetter_ne_comma hl (hcon.trans h)
      · exact isLetter_ne_dot hl (hcon.trans h)
  refine ⟨hne, ?_, ?_, ?_, ?_⟩
  · intro hsp
    have hfalse := (hchars spCh hsp).1
    rw [spCh_isSpace] at hfalse
    exact Bool.noConfusion hfalse
  · intro hnl
    exact scanCharOK_ne_nl (hmem nlCh hnl) rfl
  · exact splitWsF_no_start (Or.inl rfl) hchar_ws
      (trimmedText_no_sp_punct maxT text (Or.inl rfl)) (hhd (Or.inl rfl)) w hw
  · exact splitWsF_no_start (Or.inr rfl) hchar_ws
      (trimmedText_no_sp_punct maxT text (Or.inr rfl)) (hhd (Or.inr rfl)) w hw

theorem lines_of_trimmed (maxT width : Nat) (text : List Char) {b : Char}
    (hb : b = commaCh ∨ b = dotCh) :
    ∀ l ∈ wrapLines (trimmedText maxT text) width,
      l ≠ [] ∧ hasPair spCh b l = false ∧ l.head? ≠ some b ∧ nlCh ∉ l := by
  have hb_ne_sp : b ≠ spCh := by
    rcases hb with h | h <;> rw [h] <;> decide
  have hb_ne_nl : b ≠ nlCh := by
    rcases hb with h | h <;> rw [h] <;> decide
  refine wrapLoop_pres width _ ?_ (splitWs (trimmedText maxT text)) [] [] ?_
    (fun l hl => absurd hl (List.not_mem_nil l)) (Or.inl rfl)
  · rintro x w ⟨hx_ne, hx_pf, hx_hd, hx_nl⟩ ⟨hw_ne, hw_pf, hw_hd, hw_nl⟩ _
    refine ⟨?_, ?_, ?_, ?_⟩
    · intro hcon
      exact hx_ne (List.append_eq_nil.mp hcon).1
    · refine hasPair_append_false hx_pf ?_ ?_
      · refine hasPair_cons_false hw_pf ?_
        rintro ⟨-, h2⟩
        exact hw_hd h2
      · rintro ⟨-, h2⟩
        rw [List.head?_cons, Option.some.injEq] at h2
        exact hb_ne_sp h2.symm
    · rw [head?_append_of_ne hx_ne]
      exact hx_hd
    · intro hcon
      rcases List.mem_append.mp hcon with h1 | h2
      · exact hx_nl h1
      · rcases List.mem_cons.mp h2 with h3 | h4
        · exact absurd h3 (by decide)
        · exact hw_nl h4
  · intro w hw
    obtain ⟨h1, h2, h3, h4, h5⟩ := words_of_trimmed maxT text w hw
    refine ⟨h1, hasPair_not_mem h2, ?_, h3⟩
    rcases hb with h | h
    · rw [h]; exact h4
    · rw [h]; exact h5

theorem wrapLines_ne_nil_of {text : List Char} {width : Nat}
    (h : wrapLines text width ≠ []) : text ≠ [] := by
  intro he
  subst he
  exact h rfl

theorem sanitize_ends_dot (raw : List Char) (maxT maxL width : Nat)
    (hwl : (wrapLines (trimmedText maxT (preprocessText raw)) width).length ≤ maxL)
    (hne : sanitizeLines raw maxT maxL width ≠ []) :
    (joinWith nlCh (sanitizeLines raw maxT maxL width)).getLast? = some dotCh := by
  have htake : sanitizeLines raw maxT maxL width =
      wrapLines (trimmedText maxT (preprocessText raw)) width := by
    rw [sanitizeLines_eq]
    exact List.take_of_length_le hwl
  rw [htake] at hne ⊢
  have htr_ne : trimmedText maxT (preprocessText raw) ≠ [] :=
    wrapLines_ne_nil_of hne
  have hdot : (trimmedText maxT (preprocessText raw)).getLast? = some dotCh := by
    rcases trimmedText_ends maxT (preprocessText raw) with h | h
    · exact absurd h htr_ne
    · exact h
  obtain ⟨w, hw1, hw2⟩ := @splitWsF_last (trimmedText maxT (preprocessText raw)).length
    (trimmedText maxT (preprocessText raw)) dotCh (Nat.le_refl _) hdot dot_not_space
  obtain ⟨l, hl1, hl2⟩ := wrapLoop_last width (splitWs (trimmedText maxT (preprocessText raw)))
    [] [] w dotCh (fun u hu => (splitWsF_words u hu).1) hw1 hw2
  refine joinWith_getLast _ l dotCh ?_ hl1 hl2
  intro u hu
  exact (lines_of_trimmed maxT width (preprocessText raw) (Or.inl rfl) u hu).1

theorem sanitize_not_end_nl (raw : List Char) (maxT maxL width : Nat) :
    (joinWith nlCh (sanitizeLines raw maxT maxL width)).getLast? ≠ some nlCh := by
  match hls : sanitizeLines raw maxT maxL width with
  | [] =>
    rw [joinWith_nil, List.getLast?_nil]
    exact Option.noConfusion
  | l :: rest =>
    have hprops : ∀ u ∈ l :: rest, u ≠ [] ∧ nlCh ∉ u := by
      intro u hu
      have hmem : u ∈ wrapLines (trimmedText maxT (preprocessText raw)) width := by
        have : u ∈ sanitizeLines raw maxT maxL width := by rw [hls]; exact hu
        rw [sanitizeLines_eq] at this
        exact (List.take_sublist _ _).mem this
      obtain ⟨h1, -, -, h4⟩ :=
        lines_of_trimmed maxT width (preprocessText raw) (Or.inl rfl) u hmem
      exact ⟨h1, h4⟩
    have hllast : ∃ llast, (l :: rest).getLast? = some llast := by
      match hg : (l :: rest).getLast? with
      | some u => exact ⟨u, rfl⟩
      | none => exact absurd (List.getLast?_eq_none_iff.mp hg) (List.cons_ne_nil l rest)
    obtain ⟨llast, hg⟩ := hllast
    have hllast_mem : llast ∈ l :: rest := List.mem_of_getLast?_eq_some hg
    obtain ⟨hl_ne, hl_nl⟩ := hprops llast hllast_mem
    have hx : ∃ x, llast.getLast? = some x := by
      match hgx : llast.getLast? with
      | some x => exact ⟨x, rfl⟩
      | none => exact absurd (List.getLast?_eq_none_iff.mp hgx) hl_ne
    obtain ⟨x, hgx⟩ := hx
    have hx_mem : x ∈ llast := List.mem_of_getLast?_eq_some hgx
    have hjoin := @joinWith_getLast nlCh (l :: rest) llast x
      (fun u hu => (hprops u hu).1) hg hgx
    rw [hjoin]
    intro hcon
    rw [Option.some.injEq] at hcon
    rw [hcon] at hx_mem
    exact hl_nl hx_mem

/-! ## Device ingestion (main_rgb firmware)

`RxCallbacks::onWrite` (BLE) appends the written value to `bleAccum`; when the
accumulator contains a newline, the whole accumulator — including anything
after the first newline — becomes `gLiveText`, the flags are raised and the
accumulator is cleared.  `processUSB` drains `Serial`, bounding `usbAccum` at
4096 bytes by dropping all but the last 2048 on overflow, and applies the same
whole-buffer publication on newline.  (`String(bleAccum.c_str())` copies the
whole accumulator; inbound text never contains a NUL byte.)
-/

structure IngestState where
  accum : List Char
  liveText : List Char
  hasLive : Bool
  newLivePending : Bool
deriving DecidableEq

def initIngest : IngestState := ⟨[], [], false, false⟩

def bleOnWrite (st : IngestState) (v : List Char) : IngestState :=
  if v.isEmpty then st
  else
    let acc := st.accum ++ v
    if nlCh ∈ acc then
      { accum := [], liveText := acc, hasLive := true, newLivePending := true }
    else
      { st with accum := acc }

def usbStep (accum : List Char) (c : Char) : List Char :=
  let a := accum ++ [c]
  if 4096 < a.length then a.drop (a.length - 2048) else a

def usbFeed (accum : List Char) (input : List Char) : List Char :=
  input.foldl usbStep accum

def processUSB (st : IngestState) (input : List Char) : IngestState :=
  let acc := usbFeed st.accum input
  if nlCh ∈ acc then
    { accum := [], liveText := acc, hasLive := true, newLivePending := true }
  else
    { st with accum := acc }

theorem usbStep_le {accum : List Char} {c : Char} (h : accum.length ≤ 4096) :
    (usbStep accum c).length ≤ 4096 := by
  unfold usbStep
  by_cases h1 : 4096 < (accum ++ [c]).length
  · rw [if_pos h1]
    rw [List.length_drop, List.length_append]
    simp only [List.length_cons, List.length_nil]
    omega
  · rw [if_neg h1]
    omega

theorem usbFeed_le {accum input : List Char} (h : accum.length ≤ 4096) :
    (usbFeed accum input).length ≤ 4096 := by
  induction input generalizing accum with
  | nil => exact h
  | cons c rest ih =>
    show (usbFeed (usbStep accum c) rest).length ≤ 4096
    exact ih (usbStep_le h)

theorem bleOnWrite_no_nl {st : IngestState} {v : List Char}
    (hnl : nlCh ∉ st.accum ++ v) :
    (bleOnWrite st v).accum = st.accum ++ v ∨ (bleOnWrite st v).accum = st.accum := by
  unfold bleOnWrite
  by_cases h1 : v.isEmpty = true
  · rw [if_pos h1]
    exact Or.inr rfl
  · rw [if_neg h1]
    rw [if_neg hnl]
    exact Or.inl rfl

theorem bleOnWrite_nonempty_no_nl {st : IngestState} {v : List Char}
    (hv : v ≠ []) (hnl : nlCh ∉ st.accum ++ v) :
    (bleOnWrite st v).accum = st.accum ++ v := by
  unfold bleOnWrite
  rw [if_neg (by rw [List.isEmpty_eq_false.mpr hv]; exact Bool.noConfusion), if_neg hnl]

theorem bleOnWrite_complete {st : IngestState} {v : List Char}
    (hv : v ≠ []) (hnl : nlCh ∈ st.accum ++ v) :
    bleOnWrite st v =
      ⟨[], st.accum ++ v, true, true⟩ := by
  unfold bleOnWrite
  rw [if_neg (by rw [List.isEmpty_eq_false.mpr hv]; exact Bool.noConfusion), if_pos hnl]

theorem processUSB_complete {st : IngestState} {input : List Char}
    (hnl : nlCh ∈ usbFeed st.accum input) :
    processUSB st input = ⟨[], usbFeed st.accum input, true, true⟩ := by
  unfold processUSB
  rw [if_pos hnl]

/-! ## The persistent BLE bridge (`write_payload` in the embedded helper)

The helper's `write_payload` first ensures a connection and a resolved RX
characteristic, then issues the GATT write; on any exception it clears the
cached client and characteristic, reconnects from scratch, and retries the
write exactly once — a second failure propagates to the caller as an error
response.  The model numbers connection handles with a generation counter
(`ensure_connected` on an empty cache creates handle `gen+1`) and takes the
outcome of the k-th GATT write attempt from the oracle `writeOk`.
-/

structure BridgeState where
  client : Option Nat
  rxChar : Option Nat
  gen : Nat
deriving DecidableEq

def ensure_connected (s : BridgeState) : BridgeState :=
  match s.client with
  | some _ => if s.rxChar.isSome then s else { s with rxChar := some s.gen }
  | none => { client := some (s.gen + 1), rxChar := some (s.gen + 1), gen := s.gen + 1 }

inductive WriteOutcome
  | ok
  | hardError
deriving DecidableEq

/-- Returns the outcome, the final bridge state, and the number of GATT write
attempts that were issued. -/
def write_payload (writeOk : Nat → Bool) (s : BridgeState) :
    WriteOutcome × BridgeState × Nat :=
  let s1 := ensure_connected s
  if writeOk 0 then (.ok, s1, 1)
  else
    let s2 : BridgeState := { s1 with client := none, rxChar := none }
    let s3 := ensure_connected s2
    if writeOk 1 then (.ok, s3, 2) else (.hardError, s3, 2)

/-- The Ruby caller (`BlePersistent#write`) sends a single `write` command and
on an error response simply marks the connection stale and re-raises: it adds
no retries of its own on top of the bridge's single retry. -/
def blePersistent_write (writeOk : Nat → Bool) (s : BridgeState) :
    WriteOutcome × BridgeState × Nat × Bool :=
  let r := write_payload writeOk s
  match r.1 with
  | .ok => (.ok, r.2.1, r.2.2, true)
  | .hardError => (.hardError, r.2.1, r.2.2, false)

/-! ## Display sequencer (firmware `loop()`)

One cooperative iteration: first the pending "new live text" flag is
consumed (restarting at the dissolve with a fresh phase timer), then the
state switch runs.  `millis()` is modelled by the `now` argument (the
firmware calls it several times per iteration; the model uses the single
iteration time, which none of the verified claims depend on).  Randomness
(`random(n)`) is modelled by the list `draws` of successive values for the
STATE_DONE rejection-sampling loop; an exhausted list models the loop never
finding a differing value (which cannot happen when some draw differs).
-/

inductive ScreenState
  | waiting
  | dissolving
  | postPause
  | thinking
  | typewriter
  | done
deriving DecidableEq

structure SeqState where
  scr : ScreenState
  tMark : Nat
  twIdx : Nat
  twLast : Nat
  newLivePending : Bool
  hasLive : Bool
  liveText : List Char
  currentPhilo : Nat
deriving DecidableEq

def kNumPhilos : Nat := 6

def twDelayMs : Nat := 30

def rejectionPick (prev : Nat) : List Nat → Option Nat
  | [] => none
  | d :: ds => if d = prev then rejectionPick prev ds else some d

def doneTransition (numPhilos : Nat) (s : SeqState) (now : Nat) (draws : List Nat) :
    Option SeqState :=
  match (if 1 < numPhilos then rejectionPick s.currentPhilo draws
         else some s.currentPhilo) with
  | none => none
  | some v =>
    some { s with currentPhilo := v, hasLive := false, tMark := now, scr := .waiting }

def preemptStep (s : SeqState) (now : Nat) : SeqState :=
  if s.newLivePending then
    { s with newLivePending := false, tMark := now, scr := .dissolving }
  else s

def switchStep (canned : List (List Char)) (s : SeqState) (now : Nat)
    (draws : List Nat) : Option SeqState :=
  match s.scr with
  | .waiting =>
    some (if 60000 ≤ now - s.tMark then { s with scr := .dissolving } else s)
  | .dissolving => some { s with tMark := now, scr := .postPause }
  | .postPause =>
    some (if 1000 ≤ now - s.tMark then { s with tMark := now, scr := .thinking } else s)
  | .thinking =>
    some (if 10000 ≤ now - s.tMark then
      { s with twIdx := 0, twLast := 0, scr := .typewriter } else s)
  | .typewriter =>
    some (if twDelayMs ≤ now - s.twLast then
      let src := if s.hasLive then s.liveText else canned.getD s.currentPhilo []
      if s.twIdx < src.length then { s with twLast := now, twIdx := s.twIdx + 1 }
      else { s with twLast := now, scr := .done }
    else s)
  | .done => doneTransition kNumPhilos s now draws

def loopIter (canned : List (List Char)) (s : SeqState) (now : Nat)
    (draws : List Nat) : Option SeqState :=
  switchStep canned (preemptStep s now) now draws

theorem rejectionPick_ne {prev v : Nat} :
    ∀ {ds : List Nat}, rejectionPick prev ds = some v → v ≠ prev := by
  intro ds
  induction ds with
  | nil => intro h; exact Option.noConfusion h
  | cons d ds ih =>
    intro h
    unfold rejectionPick at h
    by_cases hd : d = prev
    · rw [if_pos hd] at h
      exact ih h
    · rw [if_neg hd] at h
      rw [Option.some.injEq] at h
      rw [← h]
      exact hd

theorem rejectionPick_mem {prev v : Nat} :
    ∀ {ds : List Nat}, rejectionPick prev ds = some v → v ∈ ds := by
  intro ds
  induction ds with
  | nil => intro h; exact Option.noConfusion h
  | cons d ds ih =>
    intro h
    unfold rejectionPick at h
    by_cases hd : d = prev
    · rw [if_pos hd] at h
      exact List.mem_cons_of_mem d (ih h)
    · rw [if_neg hd] at h
      rw [Option.some.injEq] at h
      rw [← h]
      exact List.mem_cons_self d ds

/-! ## The block dissolve (`dissolveClearBlocks`)

The C array `uint16_t *idx` is modelled as a function from positions to
contents: initialisation stores `(uint16_t)i`, i.e. `i % 65536`, at position
`i`; swapping the contents of positions `i` and `j` turns the array `a` into
`fun k => a (swapFn i j k)`.  The Fisher-Yates loop runs `i = N-1, ..., 1`
with `j = random(i+1)` taken from the oracle `jf` (the C library guarantees
`jf i ≤ i`).  The cleared-block list is the final array read left to right;
`us_per_blk` is computed in 32-bit arithmetic (`duration_ms * 1000UL` wraps
at `2^32`) and floored to at least 1 microsecond.
-/

def swapFn (i j k : Nat) : Nat :=
  if k = i then j else if k = j then i else k

def fyFun (jf : Nat → Nat) : Nat → (Nat → Nat) → (Nat → Nat)
  | 0, a => a
  | m + 1, a => fyFun jf m (fun k => a (swapFn (m + 1) (jf (m + 1)) k))

def dissolveIdx (jf : Nat → Nat) (N : Nat) : Nat → Nat :=
  fyFun jf (N - 1) (fun i => i % 65536)

structure DissolveRun where
  nx : Nat
  ny : Nat
  blockCount : Nat
  cleared : List Nat
  usPerBlk : Nat
deriving DecidableEq

def dissolveClearBlocks (w h duration block : Nat) (jf : Nat → Nat) : DissolveRun :=
  let nx := (w + block - 1) / block
  let ny := (h + block - 1) / block
  let N := nx * ny
  let us0 := duration * 1000 % 4294967296 / (if N = 0 then 1 else N)
  { nx := nx, ny := ny, blockCount := N,
    cleared := (List.range N).map (dissolveIdx jf N),
    usPerBlk := if us0 = 0 then 1 else us0 }

theorem swapFn_invol (i j k : Nat) : swapFn i j (swapFn i j k) = k := by
  unfold swapFn
  split_ifs <;> omega

theorem swapFn_inj (i j : Nat) : Function.Injective (swapFn i j) := by
  intro a b h
  have := congrArg (swapFn i j) h
  rw [swapFn_invol, swapFn_invol] at this
  exact this

theorem swapFn_lt {i j k N : Nat} (hi : i < N) (hj : j < N) (hk : k < N) :
    swapFn i j k < N := by
  unfold swapFn
  split_ifs <;> omega

theorem fyFun_comp (jf : Nat → Nat) :
    ∀ (m : Nat) (a : Nat → Nat) (k : Nat),
      fyFun jf m a k = a (fyFun jf m id k) := by
  intro m
  induction m with
  | zero => intro a k; rfl
  | succ m ih =>
    intro a k
    show fyFun jf m (fun k => a (swapFn (m + 1) (jf (m + 1)) k)) k = _
    rw [ih (fun k => a (swapFn (m + 1) (jf (m + 1)) k)) k]
    show a (swapFn (m + 1) (jf (m + 1)) (fyFun jf m id k)) = _
    have h2 : fyFun jf (m + 1) id k =
        swapFn (m + 1) (jf (m + 1)) (fyFun jf m id k) := by
      show fyFun jf m (fun k => id (swapFn (m + 1) (jf (m + 1)) k)) k = _
      rw [ih (fun k => id (swapFn (m + 1) (jf (m + 1)) k)) k]
      rfl
    rw [h2]

theorem fyFun_id_inj (jf : Nat → Nat) :
    ∀ m : Nat, Function.Injective (fyFun jf m id) := by
  intro m
  induction m with
  | zero => intro a b h; exact h
  | succ m ih =>
    intro a b h
    have ha : fyFun jf (m + 1) id a =
        swapFn (m + 1) (jf (m + 1)) (fyFun jf m id a) := by
      show fyFun jf m (fun k => id (swapFn (m + 1) (jf (m + 1)) k)) a = _
      rw [fyFun_comp jf m (fun k => id (swapFn (m + 1) (jf (m + 1)) k)) a]
      rfl
    have hb : fyFun jf (m + 1) id b =
        swapFn (m + 1) (jf (m + 1)) (fyFun jf m id b) := by
      show fyFun jf m (fun k => id (swapFn (m + 1) (jf (m + 1)) k)) b = _
      rw [fyFun_comp jf m (fun k => id (swapFn (m + 1) (jf (m + 1)) k)) b]
      rfl
    rw [ha, hb] at h
    exact ih (swapFn_inj _ _ h)

theorem fyFun_id_lt (jf : Nat → Nat) (N : Nat) (hjf : ∀ i, jf i ≤ i) :
    ∀ m, m < N → ∀ k, k < N → fyFun jf m id k < N := by
  intro m
  induction m with
  | zero => intro _ k hk; exact hk
  | succ m ih =>
    intro hm k hk
    have hstep : fyFun jf (m + 1) id k =
        swapFn (m + 1) (jf (m + 1)) (fyFun jf m id k) := by
      show fyFun jf m (fun k => id (swapFn (m + 1) (jf (m + 1)) k)) k = _
      rw [fyFun_comp jf m (fun k => id (swapFn (m + 1) (jf (m + 1)) k)) k]
      rfl
    rw [hstep]
    have h1 : fyFun jf m id k < N := ih (by omega) k hk
    exact swapFn_lt hm (by have := hjf (m + 1); omega) h1

/-- An injective self-map of `{0, ..., N-1}` permutes `range N`. -/
theorem map_perm_range {f : Nat → Nat} {N : Nat}
    (hinj : Function.Injective f) (hlt : ∀ k, k < N → f k < N) :
    ((List.range N).map f).Perm (List.range N) := by
  have hnd : ((List.range N).map f).Nodup :=
    (List.nodup_range N).map hinj
  have hsub : (List.range N).map f ⊆ List.range N := by
    intro x hx
    rw [List.mem_map] at hx
    obtain ⟨k, hk, hfk⟩ := hx
    rw [List.mem_range] at hk
    rw [List.mem_range, ← hfk]
    exact hlt k hk
  have hsp := List.subperm_of_subset hnd hsub
  refine hsp.perm_of_length_le ?_
  rw [List.length_map, List.length_range]

theorem dissolve_cleared_perm {jf : Nat → Nat} {N : Nat}
    (hjf : ∀ i, jf i ≤ i) (hN1 : 1 ≤ N) (hN : N ≤ 65536) :
    ((List.range N).map (dissolveIdx jf N)).Perm (List.range N) := by
  have hcong : (List.range N).map (dissolveIdx jf N) =
      (List.range N).map (fyFun jf (N - 1) id) := by
    apply List.map_congr_left
    intro k hk
    rw [List.mem_range] at hk
    unfold dissolveIdx
    rw [fyFun_comp]
    exact Nat.mod_eq_of_lt
      (Nat.lt_of_lt_of_le (fyFun_id_lt jf N hjf (N - 1) (by omega) k hk) hN)
  rw [hcong]
  exact map_perm_range (fyFun_id_inj jf (N - 1))
    (fun k hk => fyFun_id_lt jf N hjf (N - 1) (by omega) k hk)

/-- C8 (amended): for every surface width `w`, height `h`, block size and
duration, provided the block count `N` is at most 65536 (so the `uint16_t`
index variable loses nothing), the dissolve clears a permutation of all `N`
block indices — each of the `N` blocks exactly once, in permutation order —
and the per-block delay is `duration_ms * 1000` (reduced mod 2^32), divided
by `N` and floored to at least 1 µs.  The random-source oracle `jf` models
`random(i + 1)`, so it is assumed to return a value at most `i`. -/
theorem claim_C8 (w h duration block : Nat) (jf : Nat → Nat)
    (hw : 0 < w) (hh : 0 < h) (hb : 0 < block) (hjf : ∀ i, jf i ≤ i)
    (hN : (dissolveClearBlocks w h duration block jf).blockCount ≤ 65536) :
    (dissolveClearBlocks w h duration block jf).cleared.Perm
      (List.range (dissolveClearBlocks w h duration block jf).blockCount) ∧
    (dissolveClearBlocks w h duration block jf).cleared.length =
      (dissolveClearBlocks w h duration block jf).blockCount ∧
    (dissolveClearBlocks w h duration block jf).usPerBlk =
      max 1 (duration * 1000 % 4294967296 /
        (dissolveClearBlocks w h duration block jf).blockCount) := by
  have hnx : 1 ≤ (w + block - 1) / block := by
    rw [Nat.le_div_iff_mul_le hb, Nat.one_mul]
    omega
  have hny : 1 ≤ (h + block - 1) / block := by
    rw [Nat.le_div_iff_mul_le hb, Nat.one_mul]
    omega
  have hN1 : 1 ≤ (w + block - 1) / block * ((h + block - 1) / block) :=
    Nat.one_le_iff_ne_zero.mpr (Nat.mul_ne_zero (by omega) (by omega))
  have hNle : (w + block - 1) / block * ((h + block - 1) / block) ≤ 65536 := hN
  refine ⟨?_, ?_, ?_⟩
  · exact dissolve_cleared_perm hjf hN1 hNle
  · show ((List.range ((w + block - 1) / block * ((h + block - 1) / block))).map
        (dissolveIdx jf ((w + block - 1) / block * ((h + block - 1) / block)))).length =
      (w + block - 1) / block * ((h + block - 1) / block)
    rw [List.length_map, List.length_range]
  · show (if duration * 1000 % 4294967296 /
        (if (w + block - 1) / block * ((h + block - 1) / block) = 0 then 1
         else (w + block - 1) / block * ((h + block - 1) / block)) = 0 then 1
      else duration * 1000 % 4294967296 /
        (if (w + block - 1) / block * ((h + block - 1) / block) = 0 then 1
         else (w + block - 1) / block * ((h + block - 1) / block))) =
      max 1 (duration * 1000 % 4294967296 /
        ((w + block - 1) / block * ((h + block - 1) / block)))
    have hg : (if (w + block - 1) / block * ((h + block - 1) / block) = 0 then 1
        else (w + block - 1) / block * ((h + block - 1) / block)) =
        (w + block - 1) / block * ((h + block - 1) / block) := if_neg (by omega)
    rw [hg]
    rcases Nat.eq_zero_or_pos (duration * 1000 % 4294967296 /
        ((w + block - 1) / block * ((h + block - 1) / block))) with h0 | h0
    · rw [h0, if_pos rfl, Nat.max_eq_left (Nat.zero_le 1)]
    · rw [if_neg (by omega)]
      exact (Nat.max_eq_right h0).symm

theorem count_zero_mod_range_65538 :
    ((List.range 65538).map (fun i => i % 65536)).count 0 = 2 := by
  have h1 : (65538 : Nat) = 65536 + 2 := by norm_num
  rw [h1, List.range_add, List.map_append, List.count_append]
  have h2 : (List.range 65536).map (fun i => i % 65536) = List.range 65536 := by
    have := List.map_congr_left (l := List.range 65536)
      (f := fun i => i % 65536) (g := id)
      (fun a ha => Nat.mod_eq_of_lt (List.mem_range.mp ha))
    rw [this, List.map_id]
  rw [h2]
  have h3 : (List.range 65536).count 0 = 1 :=
    List.count_eq_one_of_mem (List.nodup_range 65536) (List.mem_range.mpr (by norm_num))
  rw [h3, List.map_map]
  rfl

theorem dissolve_numeral : (21 + 4 - 1) / 4 * ((43692 + 4 - 1) / 4) = 65538 := by
  norm_num

theorem dissolveIdx_mod (jf : Nat → Nat) (N k : Nat) :
    dissolveIdx jf N k = fyFun jf (N - 1) id k % 65536 := by
  unfold dissolveIdx
  rw [fyFun_comp]

theorem count_cleared_general {f : Nat → Nat} {N : Nat} (hinj : Function.Injective f)
    (hlt : ∀ k, k < N → f k < N) :
    ((List.range N).map (fun k => f k % 65536)).count 0 =
    ((List.range N).map (fun x => x % 65536)).count 0 := by
  have hperm := map_perm_range hinj hlt
  have h1 : (List.range N).map (fun k => f k % 65536) =
      ((List.range N).map f).map (fun x => x % 65536) := by
    rw [List.map_map]
    rfl
  rw [h1, (hperm.map (fun x => x % 65536)).count_eq]

theorem dissolve_65538_count :
    (dissolveClearBlocks 21 43692 1500 4 (fun _ => 0)).cleared.count 0 = 2 := by
  have hmain : (dissolveClearBlocks 21 43692 1500 4 (fun _ => 0)).cleared =
      (List.range ((21 + 4 - 1) / 4 * ((43692 + 4 - 1) / 4))).map
        (dissolveIdx (fun _ => 0) ((21 + 4 - 1) / 4 * ((43692 + 4 - 1) / 4))) := by
    simp only [dissolveClearBlocks]
  rw [dissolve_numeral] at hmain
  have hsub : (65538 : Nat) - 1 = 65537 := by norm_num
  have hcong : (List.range 65538).map (dissolveIdx (fun _ => 0) 65538) =
      (List.range 65538).map (fun k => fyFun (fun _ => 0) 65537 id k % 65536) := by
    apply List.map_congr_left
    intro k _
    rw [dissolveIdx_mod, hsub]
  rw [hmain, hcong]
  rw [count_cleared_general (fyFun_id_inj (fun _ => 0) 65537)
    (fun k hk => fyFun_id_lt (fun _ => 0) 65538 (fun i => Nat.zero_le i) 65537
      (by omega) k hk)]
  exact count_zero_mod_range_65538

/-- Counterexample to C8 as stated: on a 21×43692 surface with 4×4 blocks the
block count is 65538, the `(uint16_t)i` initialisation truncates indices 65536
and 65537 to 0 and 1, and the visited list is not a permutation of the block
indices (block 0 is cleared twice, blocks 65536 and 65537 never). -/
theorem claim_C8_cex :
    ¬ (dissolveClearBlocks 21 43692 1500 4 (fun _ => 0)).cleared.Perm
      (List.range (dissolveClearBlocks 21 43692 1500 4 (fun _ => 0)).blockCount) := by
  intro hp
  have h1 := dissolve_65538_count
  have hbc : (dissolveClearBlocks 21 43692 1500 4 (fun _ => 0)).blockCount = 65538 := by
    have hproj : (dissolveClearBlocks 21 43692 1500 4 (fun _ => 0)).blockCount =
        (21 + 4 - 1) / 4 * ((43692 + 4 - 1) / 4) := by
      simp only [dissolveClearBlocks]
    rw [hproj, dissolve_numeral]
  rw [hbc] at hp
  have h2 : (List.range 65538).count 0 = 1 :=
    List.count_eq_one_of_mem (List.nodup_range _) (List.mem_range.mpr (by norm_num))
  rw [hp.count_eq] at h1
  rw [h2] at h1
  exact absurd h1 (by norm_num)

/-! ## The claims -/

theorem blePersistent_attempts (writeOk : Nat → Bool) (s : BridgeState) :
    (blePersistent_write writeOk s).2.2.1 = (write_payload writeOk s).2.2 := by
  show (match (write_payload writeOk s).1 with
    | WriteOutcome.ok => (WriteOutcome.ok, (write_payload writeOk s).2.1,
        (write_payload writeOk s).2.2, true)
    | WriteOutcome.hardError => (WriteOutcome.hardError, (write_payload writeOk s).2.1,
        (write_payload writeOk s).2.2, false)).2.2.1 = (write_payload writeOk s).2.2
  cases (write_payload writeOk s).1 with
  | ok => rfl
  | hardError => rfl

theorem bleOnWrite_incomplete {st : IngestState} {v : List Char}
    (hv : v ≠ []) (hnl : nlCh ∉ st.accum ++ v) :
    bleOnWrite st v = { st with accum := st.accum ++ v } := by
  unfold bleOnWrite
  rw [if_neg (by rw [List.isEmpty_eq_false.mpr hv]; exact Bool.noConfusion), if_neg hnl]

theorem processUSB_accum_le {st : IngestState} {input : List Char}
    (hacc : st.accum.length ≤ 4096) :
    (processUSB st input).accum.length ≤ 4096 := by
  unfold processUSB
  by_cases hnl : nlCh ∈ usbFeed st.accum input
  · rw [if_pos hnl]
    show (0 : Nat) ≤ 4096
    omega
  · rw [if_neg hnl]
    show (usbFeed st.accum input).length ≤ 4096
    exact usbFeed_le hacc

/-- Counterexample to C1 as stated: writing `"abc\ndef"` to the radio channel
in one chunk should, per the claim, publish `"abc\n"` and keep `"def"`
buffered; the firmware instead publishes the whole accumulator and clears it,
so the LiveMessage is not `"abc\n"` and the remainder is not kept. -/
theorem claim_C1_cex :
    ¬ ((bleOnWrite initIngest ('a' :: 'b' :: 'c' :: nlCh :: 'd' :: 'e' :: 'f' :: [])).liveText
        = 'a' :: 'b' :: 'c' :: nlCh :: [] ∧
       (bleOnWrite initIngest ('a' :: 'b' :: 'c' :: nlCh :: 'd' :: 'e' :: 'f' :: [])).accum
        = 'd' :: 'e' :: 'f' :: []) := by
  decide

/-- C1 (amended): when a nonempty chunk arrives on the radio channel and the
accumulator then contains a newline, the whole accumulator — the terminator
and any bytes after it included — becomes the LiveMessage and the accumulator
is cleared; without a newline the chunk is only appended.  The serial channel
publishes the same way after draining its input.  Feeding `"abc\n"` and then
`"def\n"` as separate chunks therefore yields LiveMessage `"abc\n"` first and
`"def\n"` second (terminators included, nothing left buffered in between). -/
theorem claim_C1 (st : IngestState) (v input : List Char) (hv : v ≠ []) :
    (nlCh ∈ st.accum ++ v →
      bleOnWrite st v = ⟨[], st.accum ++ v, true, true⟩) ∧
    (nlCh ∉ st.accum ++ v →
      bleOnWrite st v = { st with accum := st.accum ++ v }) ∧
    (nlCh ∈ usbFeed st.accum input →
      processUSB st input = ⟨[], usbFeed st.accum input, true, true⟩) ∧
    (bleOnWrite initIngest ('a' :: 'b' :: 'c' :: nlCh :: [])).liveText
      = 'a' :: 'b' :: 'c' :: nlCh :: [] ∧
    (bleOnWrite (bleOnWrite initIngest ('a' :: 'b' :: 'c' :: nlCh :: []))
        ('d' :: 'e' :: 'f' :: nlCh :: [])).liveText
      = 'd' :: 'e' :: 'f' :: nlCh :: [] := by
  refine ⟨fun hin => bleOnWrite_complete hv hin,
    fun hout => bleOnWrite_incomplete hv hout,
    fun hin => processUSB_complete hin, by decide, by decide⟩

theorem claim_C1_witness :
    (nlCh ∈ initIngest.accum ++ [nlCh] →
      bleOnWrite initIngest [nlCh] = ⟨[], initIngest.accum ++ [nlCh], true, true⟩) ∧
    (nlCh ∉ initIngest.accum ++ [nlCh] →
      bleOnWrite initIngest [nlCh] = { initIngest with accum := initIngest.accum ++ [nlCh] }) ∧
    (nlCh ∈ usbFeed initIngest.accum [nlCh] →
      processUSB initIngest [nlCh] = ⟨[], usbFeed initIngest.accum [nlCh], true, true⟩) ∧
    (bleOnWrite initIngest ('a' :: 'b' :: 'c' :: nlCh :: [])).liveText
      = 'a' :: 'b' :: 'c' :: nlCh :: [] ∧
    (bleOnWrite (bleOnWrite initIngest ('a' :: 'b' :: 'c' :: nlCh :: []))
        ('d' :: 'e' :: 'f' :: nlCh :: [])).liveText
      = 'd' :: 'e' :: 'f' :: nlCh :: [] :=
  claim_C1 initIngest [nlCh] [nlCh] (by decide)

/-- C2: `write_payload` issues at most two GATT write attempts; when the first
write succeeds it stops after one attempt; when the first write fails it
invalidates the cached client and characteristic, reconnects (obtaining a
fresh connection handle, numbered with the next generation), retries exactly
once, and surfaces a hard error exactly when that single retry also fails.
The Ruby `BlePersistent#write` adds no retries of its own. -/
theorem claim_C2 (writeOk : Nat → Bool) (s : BridgeState) :
    (write_payload writeOk s).2.2 ≤ 2 ∧
    (writeOk 0 = true →
      (write_payload writeOk s).1 = WriteOutcome.ok ∧
      (write_payload writeOk s).2.2 = 1) ∧
    (writeOk 0 = false →
      (write_payload writeOk s).2.2 = 2 ∧
      (write_payload writeOk s).2.1.client = some ((ensure_connected s).gen + 1) ∧
      (write_payload writeOk s).2.1.rxChar = some ((ensure_connected s).gen + 1) ∧
      (writeOk 1 = true → (write_payload writeOk s).1 = WriteOutcome.ok) ∧
      (writeOk 1 = false → (write_payload writeOk s).1 = WriteOutcome.hardError)) ∧
    (blePersistent_write writeOk s).2.2.1 = (write_payload writeOk s).2.2 := by
  by_cases h0 : writeOk 0 = true
  · have hw : write_payload writeOk s = (WriteOutcome.ok, ensure_connected s, 1) := by
      unfold write_payload
      rw [if_pos h0]
    refine ⟨by rw [hw]; show (1 : Nat) ≤ 2; omega, fun _ => ⟨by rw [hw], by rw [hw]⟩,
      fun hf => absurd h0 (by rw [hf]; exact Bool.noConfusion),
      blePersistent_attempts writeOk s⟩
  · have hw : write_payload writeOk s =
        (if writeOk 1 = true then WriteOutcome.ok else WriteOutcome.hardError,
         ensure_connected { ensure_connected s with client := none, rxChar := none }, 2) := by
      unfold write_payload
      rw [if_neg h0]
      by_cases h1 : writeOk 1 = true
      · rw [if_pos h1, if_pos h1]
      · rw [if_neg h1, if_neg h1]
    refine ⟨by rw [hw], fun ht => absurd ht h0,
      fun _ => ⟨by rw [hw], by rw [hw]; rfl, by rw [hw]; rfl,
        fun h1 => by rw [hw]; show (if writeOk 1 = true then _ else _) = _; rw [if_pos h1],
        fun h1 => by rw [hw]; show (if writeOk 1 = true then _ else _) = _; rw [if_neg (by rw [h1]; exact Bool.noConfusion)]⟩,
      blePersistent_attempts writeOk s⟩

/-- Counterexample to C3 as stated: `"Hi"` contains a letter, yet with a token
budget of 0 the formatter keeps no token and returns the empty string, which
does not end with a full stop. -/
theorem claim_C3_cex :
    ('H' ∈ "Hi".data ∧ isLetter 'H' = true) ∧
    sanitize_and_format "Hi" 0 6 19 = "" ∧
    (sanitize_and_format "Hi" 0 6 19).data.getLast? ≠ some dotCh := by
  refine ⟨⟨by decide, by decide⟩, by decide, by decide⟩

/-- C3 (amended): the output of `sanitize_and_format` has at most `max_lines`
lines, each nonempty and at most `width` characters long except for a line
consisting of a single word (no space in it); if the wrapped text fits within
`max_lines` (so the line cap cuts nothing) and the output is nonempty, the
output ends with a full stop; and an input with no letters yields the empty
output.  (An input with letters can still yield an empty — or non-dot-final —
output when `max_tokens` is 0 or `max_lines` cuts lines away.) -/
theorem claim_C3 (raw : List Char) (maxT maxL width : Nat) :
    (sanitizeLines raw maxT maxL width).length ≤ maxL ∧
    (∀ l ∈ sanitizeLines raw maxT maxL width, l ≠ [] ∧ (l.length ≤ width ∨ spCh ∉ l)) ∧
    ((wrapLines (trimmedText maxT (preprocessText raw)) width).length ≤ maxL →
      sanitizeLines raw maxT maxL width ≠ [] →
      (sanitize_and_format (String.mk raw) maxT maxL width).data.getLast? = some dotCh) ∧
    ((∀ c ∈ raw, isLetter c = false) →
      sanitize_and_format (String.mk raw) maxT maxL width = "") := by
  refine ⟨?_, ?_, ?_, ?_⟩
  · rw [sanitizeLines_eq, List.length_take]
    exact Nat.min_le_left _ _
  · intro l hl
    have hmem : l ∈ wrapLines (trimmedText maxT (preprocessText raw)) width := by
      rw [sanitizeLines_eq] at hl
      exact (List.take_sublist _ _).mem hl
    refine ⟨(lines_of_trimmed maxT width (preprocessText raw) (Or.inl rfl) l hmem).1, ?_⟩
    refine wrapLoop_len width (splitWs (trimmedText maxT (preprocessText raw))) [] []
      ?_ ?_ (Or.inl rfl) l hmem
    · intro w hw
      exact (words_of_trimmed maxT (preprocessText raw) w hw).2.1
    · intro l2 hl2
      exact absurd hl2 (List.not_mem_nil l2)
  · exact fun hwl hne => sanitize_ends_dot raw maxT maxL width hwl hne
  · intro h
    show String.mk (joinWith nlCh (sanitizeLines raw maxT maxL width)) = ""
    rw [sanitizeLines_no_letters maxT maxL width h]
    rfl

/-- Counterexample to C4 as stated: the formatter output for `"ab, cd"` is
`"ab, cd."`; a comma occurs in it, yet nowhere in the output is a comma
preceded by a space — punctuation is attached directly to the preceding
token, refuting the claimed "space before it". -/
theorem claim_C4_cex :
    sanitize_and_format "ab, cd" 28 6 19 = "ab, cd." ∧
    commaCh ∈ "ab, cd.".data ∧
    hasPair spCh commaCh "ab, cd.".data = false := by
  refine ⟨by decide, by decide, by decide⟩

/-- C4 (amended): in the formatter's output no comma or full stop is ever
preceded by a space (the mark is attached directly to the preceding token,
any pending space being dropped first); in the trimmed text a character
following a comma is a space, another comma, or a full stop (the space the
scanner inserts after a mark, unless another mark immediately replaces it);
and punctuation consumes no token budget — the scanner's token count is
exactly `min max_tokens (number of tokens in the text)`. -/
theorem claim_C4 (raw : List Char) (maxT maxL width : Nat) :
    hasPair spCh commaCh (sanitize_and_format (String.mk raw) maxT maxL width).data = false ∧
    hasPair spCh dotCh (sanitize_and_format (String.mk raw) maxT maxL width).data = false ∧
    (∀ z, hasPair commaCh z (trimmedText maxT (preprocessText raw)) = true →
      z = spCh ∨ z = commaCh ∨ z = dotCh) ∧
    (scanText maxT (preprocessText raw)).wc = min maxT (tokenCount (preprocessText raw)) := by
  have hlines : ∀ b, b = commaCh ∨ b = dotCh → ∀ l ∈ sanitizeLines raw maxT maxL width,
      l ≠ [] ∧ hasPair spCh b l = false ∧ l.head? ≠ some b := by
    intro b hb l hl
    have hmem : l ∈ wrapLines (trimmedText maxT (preprocessText raw)) width := by
      rw [sanitizeLines_eq] at hl
      exact (List.take_sublist _ _).mem hl
    obtain ⟨h1, h2, h3, -⟩ := lines_of_trimmed maxT width (preprocessText raw) hb l hmem
    exact ⟨h1, h2, h3⟩
  refine ⟨?_, ?_, fun z => trimmedText_comma_follow maxT (preprocessText raw),
    scanText_wc maxT (preprocessText raw)⟩
  · show hasPair spCh commaCh (joinWith nlCh (sanitizeLines raw maxT maxL width)) = false
    exact joinWith_pairfree (by decide) _
      (fun l hl => (hlines commaCh (Or.inl rfl) l hl).1)
      (fun l hl => (hlines commaCh (Or.inl rfl) l hl).2.1)
      (fun l hl => (hlines commaCh (Or.inl rfl) l hl).2.2)
  · show hasPair spCh dotCh (joinWith nlCh (sanitizeLines raw maxT maxL width)) = false
    exact joinWith_pairfree (by decide) _
      (fun l hl => (hlines dotCh (Or.inr rfl) l hl).1)
      (fun l hl => (hlines dotCh (Or.inr rfl) l hl).2.1)
      (fun l hl => (hlines dotCh (Or.inr rfl) l hl).2.2)

/-- C5: on the raw input `"Hello there. Ignore this part"` with a budget of 28
tokens, 6 lines and width 19 the formatter returns exactly the single line
`"Hello there."` — everything after the first full stop is discarded. -/
theorem claim_C5 :
    sanitize_and_format "Hello there. Ignore this part" 28 6 19 = "Hello there." := by
  decide

/-- Counterexample to C6 as stated: a single 4097-byte terminator-free chunk
on the radio channel leaves the whole chunk in the accumulator — the radio
accumulator has no cap, so it exceeds the serial channel's 4096-byte cap and
nothing is dropped from the front. -/
theorem claim_C6_cex :
    (bleOnWrite initIngest (List.replicate 4097 'a')).accum =
      List.replicate 4097 'a' ∧
    4096 < (bleOnWrite initIngest (List.replicate 4097 'a')).accum.length := by
  have hv : List.replicate 4097 'a' ≠ ([] : List Char) := by
    intro hcon
    have hlen := congrArg List.length hcon
    rw [List.length_replicate, List.length_nil] at hlen
    exact absurd hlen (by omega)
  have hnl : nlCh ∉ initIngest.accum ++ List.replicate 4097 'a' := by
    intro hcon
    rw [show initIngest.accum = ([] : List Char) from rfl, List.nil_append] at hcon
    exact absurd (List.eq_of_mem_replicate hcon) (by decide)
  have h1 := bleOnWrite_nonempty_no_nl hv hnl
  constructor
  · rw [h1]
    rfl
  · rw [h1]
    show 4096 < (([] : List Char) ++ List.replicate 4097 'a').length
    rw [List.nil_append, List.length_replicate]
    omega

/-- C6 (amended): only the serial channel's accumulator is bounded — it never
exceeds 4096 bytes (on overflow all but the last 2048 bytes are dropped from
the front), both while draining input and after a `processUSB` call.  The
radio channel's accumulator is unbounded: a nonempty terminator-free chunk
grows it by exactly the chunk's length, with nothing dropped. -/
theorem claim_C6 (st : IngestState) (input v : List Char)
    (hacc : st.accum.length ≤ 4096) (hv : v ≠ []) (hnl : nlCh ∉ st.accum ++ v) :
    (usbFeed st.accum input).length ≤ 4096 ∧
    (processUSB st input).accum.length ≤ 4096 ∧
    (bleOnWrite st v).accum.length = st.accum.length + v.length := by
  refine ⟨usbFeed_le hacc, processUSB_accum_le hacc, ?_⟩
  rw [bleOnWrite_nonempty_no_nl hv hnl, List.length_append]

theorem claim_C6_witness :
    (usbFeed initIngest.accum ['x']).length ≤ 4096 ∧
    (processUSB initIngest ['x']).accum.length ≤ 4096 ∧
    (bleOnWrite initIngest ['y']).accum.length =
      initIngest.accum.length + (['y'] : List Char).length :=
  claim_C6 initIngest ['x'] ['y'] (by decide) (by decide) (by decide)

/-- C7: when the "new live text" signal is pending at the start of a loop
iteration, that iteration clears the flag, overwrites the current phase —
whatever it was, a mid-reveal Typewriter included — with Dissolving and a
fresh phase timer, and (the switch running in the same iteration) completes
the dissolve into PostPause; reveal progress is discarded, since re-entering
Typewriter always goes through Thinking, which resets the reveal index to
0. -/
theorem claim_C7 (canned : List (List Char)) (s : SeqState) (now : Nat)
    (draws : List Nat) (h : s.newLivePending = true) :
    preemptStep s now =
      { s with newLivePending := false, tMark := now, scr := ScreenState.dissolving } ∧
    loopIter canned s now draws =
      some { s with newLivePending := false, tMark := now, scr := ScreenState.postPause } ∧
    (∀ s2 now2, s2.scr = ScreenState.thinking → 10000 ≤ now2 - s2.tMark →
      switchStep canned s2 now2 draws =
        some { s2 with twIdx := 0, twLast := 0, scr := ScreenState.typewriter }) := by
  have hp : preemptStep s now =
      { s with newLivePending := false, tMark := now, scr := ScreenState.dissolving } := by
    unfold preemptStep
    rw [if_pos h]
  refine ⟨hp, ?_, ?_⟩
  · unfold loopIter
    rw [hp]
    rfl
  · intro s2 now2 hscr htime
    unfold switchStep
    rw [hscr]
    rw [if_pos htime]

theorem claim_C7_witness :
    preemptStep ⟨ScreenState.typewriter, 0, 5, 0, true, false, [], 0⟩ 7 =
      ⟨ScreenState.dissolving, 7, 5, 0, false, false, [], 0⟩ ∧
    loopIter [] ⟨ScreenState.typewriter, 0, 5, 0, true, false, [], 0⟩ 7 [] =
      some ⟨ScreenState.postPause, 7, 5, 0, false, false, [], 0⟩ ∧
    (∀ s2 now2, s2.scr = ScreenState.thinking → 10000 ≤ now2 - s2.tMark →
      switchStep [] s2 now2 [] =
        some { s2 with twIdx := 0, twLast := 0, scr := ScreenState.typewriter }) :=
  claim_C7 [] ⟨ScreenState.typewriter, 0, 5, 0, true, false, [], 0⟩ 7 [] rfl

theorem claim_C8_witness :
    (dissolveClearBlocks 64 32 1500 4 (fun _ => 0)).cleared.Perm
      (List.range (dissolveClearBlocks 64 32 1500 4 (fun _ => 0)).blockCount) ∧
    (dissolveClearBlocks 64 32 1500 4 (fun _ => 0)).cleared.length =
      (dissolveClearBlocks 64 32 1500 4 (fun _ => 0)).blockCount ∧
    (dissolveClearBlocks 64 32 1500 4 (fun _ => 0)).usPerBlk =
      max 1 (1500 * 1000 % 4294967296 /
        (dissolveClearBlocks 64 32 1500 4 (fun _ => 0)).blockCount) :=
  claim_C8 64 32 1500 4 (fun _ => 0) (by decide) (by decide) (by decide)
    (fun i => Nat.zero_le i) (by decide)

/-- C9: the Done state hands over to `doneTransition`; whenever that
transition produces a state it has cleared the has-live flag, reset the phase
timer and returned to the waiting (Idle) state, and when more than one canned
entry exists the new entry is drawn by rejection sampling, so it differs from
the previous one (and is one of the drawn values); with at most one entry the
redraw loop is skipped entirely — the transition succeeds with no draws at
all and the entry is unchanged. -/
theorem claim_C9 (canned : List (List Char)) (numPhilos : Nat) (s s' : SeqState)
    (now : Nat) (draws : List Nat) :
    (s.scr = ScreenState.done →
      switchStep canned s now draws = doneTransition kNumPhilos s now draws) ∧
    (doneTransition numPhilos s now draws = some s' →
      s'.hasLive = false ∧ s'.scr = ScreenState.waiting ∧ s'.tMark = now ∧
      (1 < numPhilos → s'.currentPhilo ≠ s.currentPhilo ∧ s'.currentPhilo ∈ draws)) ∧
    (¬ 1 < numPhilos →
      doneTransition numPhilos s now draws =
        some { s with hasLive := false, tMark := now, scr := ScreenState.waiting }) := by
  refine ⟨?_, ?_, ?_⟩
  · intro h
    unfold switchStep
    rw [h]
  · intro h
    unfold doneTransition at h
    by_cases hn : 1 < numPhilos
    · rw [if_pos hn] at h
      cases hr : rejectionPick s.currentPhilo draws with
      | none =>
        rw [hr] at h
        exact Option.noConfusion h
      | some v =>
        rw [hr] at h
        have hs' := Option.some.inj h
        rw [← hs']
        exact ⟨rfl, rfl, rfl, fun _ => ⟨rejectionPick_ne hr, rejectionPick_mem hr⟩⟩
    · rw [if_neg hn] at h
      have hs' := Option.some.inj h
      rw [← hs']
      exact ⟨rfl, rfl, rfl, fun hlt => absurd hlt hn⟩
  · intro hn
    unfold doneTransition
    rw [if_neg hn]

/-- C10: the payload handed to the transport is the formatted text with one
newline appended: the formatted text never ends with a newline itself, so the
payload always ends with exactly one trailing newline — the device's
completion terminator. -/
theorem claim_C10 (raw : String) (maxT maxL width : Nat) :
    payloadOf (sanitize_and_format raw maxT maxL width).data =
      (sanitize_and_format raw maxT maxL width).data ++ [nlCh] ∧
    (payloadOf (sanitize_and_format raw maxT maxL width).data).getLast? = some nlCh ∧
    (payloadOf (sanitize_and_format raw maxT maxL width).data).dropLast.getLast? ≠
      some nlCh := by
  have h1 : (sanitize_and_format raw maxT maxL width).data.getLast? ≠ some nlCh :=
    sanitize_not_end_nl raw.data maxT maxL width
  have h2 : payloadOf (sanitize_and_format raw maxT maxL width).data =
      (sanitize_and_format raw maxT maxL width).data ++ [nlCh] := by
    unfold payloadOf
    rw [if_neg h1]
  refine ⟨h2, ?_, ?_⟩
  · rw [h2, List.getLast?_concat]
  · rw [h2, List.dropLast_concat]
    exact h1
